import Mathlib

/-!
# Verification of the surf.new conversation-streaming and tool-call orchestration core

Shallow embedding of the event re-encoder (`src/api/streamer.py`), the artifact
trimming policies (`conversation_manager.py`, `claude_steel_use/agent.py`), the
action executors (`steel_computer.py`, openai agent), the agent loops
(`base/agent.py`, openai computer-use agent, browser_use agent consumer loop),
and the resume endpoint (`index.py`), together with proofs of the spec claims.
-/

set_option maxHeartbeats 1600000
set_option linter.unusedVariables false

namespace Streamer

/-- Python truthiness of an optional string value (`None` and `""` are falsy). -/
def strTruthy : Option String → Bool
  | none => false
  | some s => s ≠ ""

/-- One element of `chunk.tool_call_chunks`: a streamed tool-call argument
fragment tagged by an index, as read by `stream_vercel_format`. -/
structure ToolChunkFrag where
  index : Option Nat
  id : Option String
  name : String
  args : Option String
deriving DecidableEq

/-- One element of `chunk.tool_calls`: a complete tool call. -/
structure FullToolCall where
  id : String
  name : String
  args : String
deriving DecidableEq

/-- `chunk.content`: either a plain string or a list of `(type, text)` items. -/
inductive ChunkContent where
  | str (s : String)
  | items (l : List (String × String))
deriving DecidableEq

/-- Truthiness of a content value (`""` and `[]` are falsy). -/
def contentTruthy : ChunkContent → Bool
  | .str s => s ≠ ""
  | .items l => l ≠ []

/-- A chunk consumed by `stream_vercel_format`: either a plain dict (only its
`stop` key is read; a dict has no message attributes) or a message object with
the attributes the encoder dispatches on. -/
inductive Chunk where
  | dict (stop : Bool)
  | msg (tool_call_chunks : List ToolChunkFrag) (tool_calls : List FullToolCall)
      (tool_call_id : Option String) (content : ChunkContent)
deriving DecidableEq

/-- A line of the outbound wire protocol, one constructor per tag/shape:
`0:` text delta, `9:` tool-call announce, `a:` tool-call result,
`e:` with reason `"tool-calls"` (mid-stream), `e:` with reason `"stop"` and
`isContinued:false` (the terminal line built in the `finally` block), and
`3:` stream error. -/
inductive WireEvent where
  | textDelta (s : String)
  | announce (id name args : String)
  | result (id : String) (payload : ChunkContent)
  | finishToolCalls
  | finishStop
  | streamError (msg : String)
deriving DecidableEq

/-- An entry of `draft_tool_calls`. -/
structure Draft where
  id : String
  name : String
  arguments : String
deriving DecidableEq

/-- Mutable state of the encoder: `draft_tool_calls` (an index-keyed map,
modelled as an association list) and `pending_tool_calls` (a set of ids,
modelled as a duplicate-free list). -/
structure StState where
  drafts : List (Nat × Draft)
  pending : List String
deriving DecidableEq

def lookupDraft (idx : Nat) : List (Nat × Draft) → Option Draft
  | [] => none
  | (i, d) :: rest => if i = idx then some d else lookupDraft idx rest

def setDraft (idx : Nat) (d : Draft) : List (Nat × Draft) → List (Nat × Draft)
  | [] => [(idx, d)]
  | (i, d0) :: rest =>
      if i = idx then (i, d) :: rest else (i, d0) :: setDraft idx d rest

/-- `set.add`: insert an id if not already present. -/
def pendingAdd (s : List String) (id : String) : List String :=
  if id ∈ s then s else s ++ [id]

/-- `set.remove` guarded by a membership check, as in the source. -/
def pendingRemove (s : List String) (id : String) : List String :=
  s.erase id

/-- The `Initialize new tool call if needed` step of the fragment loop. -/
def initDraft (st : StState) (idx : Nat) (tid : Option String)
    (tname : String) : StState :=
  if (lookupDraft idx st.drafts).isNone ∧ strTruthy tid then
    { drafts := setDraft idx ⟨tid.getD "", tname, ""⟩ st.drafts,
      pending := pendingAdd st.pending (tid.getD "") }
  else st

/-- The body of the `for tool_chunk in chunk.tool_call_chunks` loop.
`validJson` stands for Python's `json.loads` succeeding on a string. -/
def processToolFrag (validJson : String → Bool) (st : StState)
    (tc : ToolChunkFrag) : StState × List WireEvent :=
  match tc.index with
  | none => (st, [])
  | some idx =>
      -- initialize a new tool call if needed
      let st1 := initDraft st idx tc.id tc.name
      -- append arguments if they exist
      if strTruthy tc.args then
        match lookupDraft idx st1.drafts with
        | none => (st1, [])
        | some d =>
            let d' : Draft := ⟨d.id, d.name, d.arguments ++ tc.args.getD ""⟩
            let st2 : StState := { st1 with drafts := setDraft idx d' st1.drafts }
            if d'.id ≠ "" ∧ d'.name ≠ "" ∧ d'.arguments ≠ "" then
              if validJson d'.arguments then
                (st2, [.announce d'.id d'.name d'.arguments])
              else (st2, [])
            else (st2, [])
      else (st1, [])

def processToolFrags (validJson : String → Bool) :
    StState → List ToolChunkFrag → StState × List WireEvent
  | st, [] => (st, [])
  | st, tc :: rest =>
      let (st1, evs1) := processToolFrag validJson st tc
      let (st2, evs2) := processToolFrags validJson st1 rest
      (st2, evs1 ++ evs2)

/-- Events produced for a content value (the list case emits one `0:` line per
`"text"` item; the non-list case emits a single `0:` line). -/
def contentEvents : ChunkContent → List WireEvent
  | .str s => [.textDelta s]
  | .items l => l.filterMap fun p => if p.1 = "text" then some (.textDelta p.2) else none

/-- Body of the `async for chunk in stream` loop of `stream_vercel_format`. -/
def processChunk (validJson : String → Bool) (st : StState) :
    Chunk → StState × List WireEvent
  | .dict stop => (st, if stop then [.finishToolCalls] else [])
  | .msg tccs tcs tcid content =>
      if tccs ≠ [] then
        processToolFrags validJson st tccs
      else if tcs ≠ [] then
        -- emits the chunk content, then one announce per full tool call
        (⟨st.drafts, tcs.foldl (fun p tc => pendingAdd p tc.id) st.pending⟩,
          contentEvents content ++ tcs.map fun tc => .announce tc.id tc.name tc.args)
      else if strTruthy tcid then
        let id := tcid.getD ""
        let pending' := if id ∈ st.pending then pendingRemove st.pending id else st.pending
        if pending' = [] then
          (⟨[], pending'⟩, [.result id content, .finishToolCalls])
        else
          (⟨st.drafts, pending'⟩, [.result id content])
      else if contentTruthy content then
        (st, contentEvents content)
      else (st, [])

def processChunks (validJson : String → Bool) :
    StState → List Chunk → StState × List WireEvent
  | st, [] => (st, [])
  | st, c :: rest =>
      let (st1, evs1) := processChunk validJson st c
      let (st2, evs2) := processChunks validJson st1 rest
      (st2, evs1 ++ evs2)

/-- `stream_vercel_format` on a source sequence that yields `chunks` and then
either finishes normally (`err = none`) or raises an exception with message
`m` (`err = some m`): the `except` clause emits a `3:` line, and the `finally`
clause always emits the single terminal `e:` line. -/
def stream_vercel_format (validJson : String → Bool) (chunks : List Chunk)
    (err : Option String) : List WireEvent :=
  (processChunks validJson ⟨[], []⟩ chunks).2
    ++ (match err with | some m => [.streamError m] | none => [])
    ++ [.finishStop]

end Streamer

namespace Trim

/-- `MINIMAL_BASE64_IMAGE`, the fixed-size placeholder payload. -/
def MINIMAL_BASE64_IMAGE : String :=
  "data:image/png;base64,iVBORw0KGgoAAAANSUhEUgAAAAEAAAABCAQAAAC1HAwCAAAAC0lEQVR42mNkYAAAAAYAAjCB0C8AAAAASUVORK5CYII="

/-- The `output` dict of a `computer_call_output` item: its `type` key and its
`image_url` payload. -/
structure CallOutput where
  otype : String
  image_url : String
deriving DecidableEq

/-- A conversation item as inspected by `ConversationManager.trim_images`:
either a `computer_call_output` dict (with optional `call_id` and an `output`
dict) or any other item, which the trimmer never touches. -/
inductive ConvItem where
  | computerCallOutput (call_id : Option String) (output : CallOutput)
  | other (tag : String)
deriving DecidableEq

/-- The trimmer's image test: `type == "computer_call_output"` and
`output.type == "input_image"`. -/
def isImageItem : ConvItem → Bool
  | .computerCallOutput _ out => out.otype = "input_image"
  | .other _ => false

/-- The in-place replacement performed on a trimmed item: keep the output
dict's keys but overwrite `image_url` with the placeholder, and materialize
`call_id` (defaulting to `"unknown"`). -/
def trimReplace : ConvItem → ConvItem
  | .computerCallOutput cid out =>
      .computerCallOutput (some (cid.getD "unknown"))
        ⟨out.otype, MINIMAL_BASE64_IMAGE⟩
  | .other t => .other t

def countImages (l : List ConvItem) : Nat := (l.filter isImageItem).length

/-- Replace the first `n` image items of the list in place, as the loop over
`images_to_trim = image_items[: -num_images_to_keep]` does. -/
def replaceFirstImages : Nat → List ConvItem → List ConvItem
  | _, [] => []
  | 0, l => l
  | n + 1, item :: rest =>
      if isImageItem item then trimReplace item :: replaceFirstImages n rest
      else item :: replaceFirstImages (n + 1) rest

/-- `ConversationManager.trim_images` with retention bound `K`
(`num_images_to_keep`). The Python slice `image_items[:-K]` is empty when
`K = 0`, so a bound of zero trims nothing. -/
def trim_images (K : Nat) (items : List ConvItem) : List ConvItem :=
  if countImages items ≤ K then items
  else replaceFirstImages (if K = 0 then 0 else countImages items - K) items

/-- One element of a tool message's content list: a dict with a `type` key
(payload abstracted to one string; for `type == "text"` it is the text),
or a non-dict value, which the trimmer skips. -/
inductive Piece where
  | dictPiece (ptype : String) (payload : String)
  | nonDict (s : String)
deriving DecidableEq

/-- `msg.content` of a message: a string, a list of pieces, or a single dict. -/
inductive MsgContent where
  | strC (s : String)
  | listC (l : List Piece)
  | dictC (p : Piece)
deriving DecidableEq

/-- A chat-history message as inspected by `trim_images_from_messages`:
a `ToolMessage` (with `tool_call_id` and content) or anything else. -/
inductive Message where
  | toolMsg (tool_call_id : String) (content : MsgContent)
  | otherMsg (tag : String)
deriving DecidableEq

/-- The placeholder content piece substituted for a removed image. -/
def placeholderPiece : Piece :=
  .dictPiece "text" "[Previous image removed to conserve context window]"

def isImagePiece : Piece → Bool
  | .dictPiece t _ => t = "image"
  | .nonDict _ => false

/-- `contents = msg.content if isinstance(msg.content, list) else [msg.content]`. -/
def msgContents : MsgContent → List Piece
  | .strC s => [.nonDict s]
  | .listC l => l
  | .dictC p => [p]

def msgHasImage : Message → Bool
  | .toolMsg _ content => (msgContents content).any isImagePiece
  | .otherMsg _ => false

/-- Number of tool messages carrying at least one image (the length of the
`image_messages` list; the reversed iteration order does not affect it). -/
def countImageMessages (msgs : List Message) : Nat :=
  (msgs.filter msgHasImage).length

/-- One content piece under the running `keep_count`: keep an image while the
budget lasts, otherwise substitute the placeholder. -/
def trimPiece (keep : Int) (p : Piece) : Int × Piece :=
  if isImagePiece p then
    if keep > 0 then (keep - 1, p) else (keep, placeholderPiece)
  else (keep, p)

def trimPieces : Int → List Piece → Int × List Piece
  | keep, [] => (keep, [])
  | keep, p :: rest =>
      let (k1, p') := trimPiece keep p
      let (k2, rest') := trimPieces k1 rest
      (k2, p' :: rest')

/-- One message of the oldest-to-newest pass of `trim_images_from_messages`. -/
def trimMsgStep (keep : Int) : Message → Int × Message
  | .otherMsg t => (keep, .otherMsg t)
  | .toolMsg cid content =>
      match content with
      | .listC l =>
          let (k, l') := trimPieces keep l
          (k, .toolMsg cid (.listC l'))
      | .dictC p =>
          if isImagePiece p then
            if keep > 0 then (keep - 1, .toolMsg cid (.dictC p))
            else (keep, .toolMsg cid (.dictC placeholderPiece))
          else (keep, .toolMsg cid (.dictC p))
      | .strC s => (keep, .toolMsg cid (.strC s))

def trimMsgsPass : Int → List Message → List Message
  | _, [] => []
  | keep, m :: rest =>
      let (k, m') := trimMsgStep keep m
      m' :: trimMsgsPass k rest

/-- `trim_images_from_messages(messages, num_images_to_keep)`: returns the
messages unchanged when the bound is falsy or negative, or when the count of
image-bearing tool messages is within the bound; otherwise runs the
oldest-to-newest replacement pass with `keep_count = num_images_to_keep`. -/
def trim_images_from_messages (messages : List Message)
    (num_images_to_keep : Int) : List Message :=
  if num_images_to_keep = 0 ∨ num_images_to_keep < 0 then messages
  else if (countImageMessages messages : Int) ≤ num_images_to_keep then messages
  else trimMsgsPass num_images_to_keep messages

end Trim

namespace Exec

/-- A primitive call into the automation layer (Playwright). -/
inductive Prim where
  | mouseMove (x y : Int)
  | mouseClick (x y : Int) (button : String)
  | mouseDown
  | mouseUp
  | evaluate (script : String)
  | keyType (text : String)
  | keyPress (key : String)
  | sleepP (ms : Int)
  | goBack
  | goForward
  | gotoP (url : String) (waitUntil : String)
  | screenshotP
deriving DecidableEq

/-- The page/automation environment: whether the page is closed, its current
URL, the effect of each primitive (`Except.error` models a raised exception),
and the screenshot data returned on success. -/
structure PageEnv where
  is_closed : Bool
  url : String
  run : Prim → Except String Unit
  shot : Except String String

/-- An action dict from the model, one constructor per recognized
`action["type"]` (with its `.get`-defaulted arguments). -/
inductive Action where
  | click (x y : Int) (button : String)
  | scroll (x y scroll_x scroll_y : Int)
  | typeA (text : String)
  | keypress (keys : List String)
  | wait (ms : Int)
  | move (x y : Int)
  | drag (path : List (Int × Int))
  | back
  | forward
  | gotoA (url : Option String)
  | screenshotA
  | unknown (t : String)
deriving DecidableEq

/-- `translate_key` applied by `SteelComputer` before each key press
(abstract: the mapping itself lives in `tools.py`). -/
def translate_key (k : String) : String := k

def dragPrims : List (Int × Int) → List Prim
  | [] => []
  | first :: rest =>
      [.mouseMove first.1 first.2, .mouseDown]
        ++ rest.map (fun pt => .mouseMove pt.1 pt.2) ++ [.mouseUp]

def runPrims (env : PageEnv) : List Prim → Except String Unit
  | [] => .ok ()
  | p :: rest => do
      _ ← env.run p
      runPrims env rest

/-- The body of `SteelComputer.execute_action`'s `try` block up to and
including the screenshot: the primitive calls of the matched action branch.
A `ValueError` is raised for a drag without a path and a goto without a URL. -/
def steelActionPrims : Action → Except String (List Prim)
  | .click x y button => .ok [.mouseMove x y, .mouseClick x y button]
  | .scroll x y sx sy =>
      .ok [.mouseMove x y, .evaluate ("window.scrollBy(" ++ toString sx ++ ", " ++ toString sy ++ ")")]
  | .typeA text => .ok [.keyType text]
  | .keypress keys => .ok (keys.map fun k => .keyPress (translate_key k))
  | .wait ms => .ok [.sleepP ms]
  | .move x y => .ok [.mouseMove x y]
  | .drag path =>
      if path = [] then .error "No path provided for drag action."
      else .ok (dragPrims path)
  | .back => .ok [.goBack]
  | .forward => .ok [.goForward]
  | .gotoA url =>
      match url with
      | none => .error "URL is required for goto action."
      | some u => .ok [.gotoP u "networkidle"]
  | .screenshotA => .ok []
  | .unknown _ => .ok []

/-- The outcome dict returned by `SteelComputer.execute_action`: an image dict
with screenshot data and current URL, or an error dict. -/
inductive ActionOutcome where
  | image (data : String) (current_url : String)
  | errorOutcome (error : String)
deriving DecidableEq

/-- The `try` body of `SteelComputer.execute_action`: run the action's
primitives, then take the screenshot; any raised exception propagates. -/
def execute_action_body (env : PageEnv) (a : Action) :
    Except String ActionOutcome :=
  match steelActionPrims a with
  | .error e => .error e
  | .ok prims =>
      match runPrims env prims with
      | .error e => .error e
      | .ok _ =>
          match env.shot with
          | .error e => .error e
          | .ok data =>
              .ok (.image data (if env.is_closed then "about:blank" else env.url))

/-- `SteelComputer.execute_action`: short-circuits with an error dict on a
closed page, and converts any exception of the body into an error dict via
the catch-all `except` clause; the `.ok` result models "returns without
raising". -/
def execute_action (env : PageEnv) (a : Action) : Except String ActionOutcome :=
  if env.is_closed then
    .ok (.errorOutcome "Page is closed; cannot execute action")
  else
    match execute_action_body env a with
    | .ok o => .ok o
    | .error e => .ok (.errorOutcome e)

/-- The primitive calls of the openai agent's `_execute_computer_action`
branches (no back/forward/goto branches, no key translation, and a drag
with an empty path is skipped rather than an error). -/
def agentActionPrims : Action → List Prim
  | .click x y button => [.mouseMove x y, .mouseClick x y button]
  | .scroll x y sx sy =>
      [.mouseMove x y, .evaluate ("window.scrollBy(" ++ toString sx ++ ", " ++ toString sy ++ ")")]
  | .typeA text => [.keyType text]
  | .keypress keys => keys.map fun k => .keyPress k
  | .wait ms => [.sleepP ms]
  | .move x y => [.mouseMove x y]
  | .drag path => if path = [] then [] else dragPrims path
  | .back => []
  | .forward => []
  | .gotoA _ => []
  | .screenshotA => []
  | .unknown _ => []

/-- `_execute_computer_action` in the openai agent: returns `""` when the page
is already closed, otherwise runs the action and the screenshot inside a
`try` whose `except` clause logs and RE-RAISES, so any automation exception
propagates to the caller (`Except.error`). -/
def execute_computer_action (env : PageEnv) (a : Action) :
    Except String String :=
  if env.is_closed then .ok ""
  else
    match runPrims env (agentActionPrims a) with
    | .error e => .error e
    | .ok _ => env.shot

end Exec

namespace Loop

/-- One entry of an agent-loop trace. Each entry consumes one clock tick, so a
`check b` at position `t` reads the cancellation signal at time `t`. -/
inductive Op where
  | check (b : Bool)
  | modelCall
  | yieldChunk
  | textEv (s : String)
  | appendMsg
  | announce (id name : String)
  | execAction (id : String)
  | resultEv (id : String)
  | doneEv
deriving DecidableEq

/-- Starting a model call or an action execution. -/
def isWork : Op → Bool
  | .modelCall => true
  | .execAction _ => true
  | _ => false

/-- A tool call parsed from model output (`{name, args, id}`). -/
structure TCall where
  name : String
  args : String
  id : String
deriving DecidableEq

/-- A streamed chunk of `base_agent`'s model stream: its text content and the
tool calls accumulated into `gathered`. -/
structure BChunk where
  content : String
  tool_calls : List TCall
deriving DecidableEq

/-- `gathered = gathered + chunk`. -/
def mergeChunk : Option BChunk → BChunk → BChunk
  | none, c => c
  | some g, c => ⟨g.content ++ c.content, g.tool_calls ++ c.tool_calls⟩

/-- The `async for chunk in ...astream(...)` loop of `base_agent`: checks the
cancel event before processing each received chunk and breaks on the first
true read. Returns (ops, gathered, next tick, broke-on-cancel). -/
def baseChunkLoop (cancel : Nat → Bool) :
    Nat → List BChunk → Option BChunk → List Op × Option BChunk × Nat × Bool
  | t, [], g => ([], g, t, false)
  | t, c :: rest, g =>
      if cancel t then ([.check true], g, t + 1, true)
      else
        let (ops, g', t', br) := baseChunkLoop cancel (t + 2) rest (some (mergeChunk g c))
        (.check false :: .yieldChunk :: ops, g', t', br)

/-- The `for tool in gathered.tool_calls` loop of `base_agent`: checks the
cancel event before each tool execution and breaks on a true read. -/
def baseToolLoop (cancel : Nat → Bool) :
    Nat → List TCall → List Op × Nat
  | t, [] => ([], t)
  | t, tc :: rest =>
      if cancel t then ([.check true], t + 1)
      else
        let (ops, t') := baseToolLoop cancel (t + 4) rest
        (.check false :: .execAction tc.id :: .resultEv tc.id :: .appendMsg :: ops, t')

/-- The `while True` loop of `base_agent` over a script assigning each model
call its streamed chunks; an exhausted script models a model call that yields
no chunks, after which the loop breaks (`if not gathered`). -/
def baseLoop (cancel : Nat → Bool) : Nat → List (List BChunk) → List Op
  | t, [] =>
      if cancel t then [.check true] else [.check false, .modelCall]
  | t, chunks :: rest =>
      if cancel t then [.check true]
      else
        let (ops1, g, t1, _) := baseChunkLoop cancel (t + 2) chunks none
        match g with
        | none => .check false :: .modelCall :: ops1
        | some gg =>
            -- `base_messages.append(gathered)` happens before the post-model check
            if cancel (t1 + 1) then
              .check false :: .modelCall :: ops1 ++ [.appendMsg, .check true]
            else if gg.tool_calls ≠ [] then
              let (ops2, t2) := baseToolLoop cancel (t1 + 2) gg.tool_calls
              .check false :: .modelCall :: ops1 ++ [.appendMsg, .check false]
                ++ ops2 ++ baseLoop cancel t2 rest
            else
              .check false :: .modelCall :: ops1 ++ [.appendMsg, .check false]

/-- An output item of the openai `/v1/responses` call, one constructor per
`item["type"]` handled by the agent (content abstracted to the joined text,
actions to their `call_id` and `action["type"]`). -/
inductive OutItem where
  | message (text : String)
  | computer_call (call_id : String) (actionName : String)
  | reasoning
  | function_call (call_id : String) (name : String)
  | assistant (text : String)
deriving DecidableEq

/-- The `for item in new_items` body of the openai computer-use agent: no
cancellation check anywhere inside. Returns (ops, next tick, returned?). -/
def openaiItems (t : Nat) : List OutItem → List Op × Nat × Bool
  | [] => ([], t, false)
  | item :: rest =>
      match item with
      | .message txt =>
          if txt.trim ≠ "" then
            let (ops, t', r) := openaiItems (t + 1) rest
            (.textEv txt :: ops, t', r)
          else openaiItems t rest
      | .computer_call cid nm =>
          let (ops, t', r) := openaiItems (t + 4) rest
          (.announce cid nm :: .execAction cid :: .appendMsg :: .resultEv cid :: ops, t', r)
      | .reasoning => openaiItems t rest
      | .function_call cid nm =>
          if nm = "goto" then
            let (ops, t', r) := openaiItems (t + 4) rest
            (.announce cid nm :: .execAction cid :: .appendMsg :: .resultEv cid :: ops, t', r)
          else
            let (ops, t', r) := openaiItems (t + 3) rest
            (.announce cid nm :: .appendMsg :: .resultEv cid :: ops, t', r)
      | .assistant txt =>
          if txt.trim ≠ "" then
            ([.textEv txt, .doneEv], t + 2, true)
          else ([.doneEv], t + 1, true)

/-- `MAX_STEPS` of the openai agent. -/
def MAX_STEPS : Nat := 30

/-- The `while True` loop of the openai computer-use agent: the cancel event
is checked only at the top of each step; an exhausted script models a failed
endpoint call (yield an error text, break). -/
def openaiLoop (cancel : Nat → Bool) : Nat → Nat → List (List OutItem) → List Op
  | t, steps, [] =>
      if cancel t then [.check true, .textEv "[OPENAI-CUA] Cancel event detected, stopping..."]
      else if steps > MAX_STEPS then
        [.check false, .textEv "[OPENAI-CUA] Reached max steps, stopping..."]
      else [.check false, .modelCall, .textEv "Error calling OpenAI CUA endpoint"]
  | t, steps, items :: rest =>
      if cancel t then [.check true, .textEv "[OPENAI-CUA] Cancel event detected, stopping..."]
      else if steps > MAX_STEPS then
        [.check false, .textEv "[OPENAI-CUA] Reached max steps, stopping..."]
      else
        let (ops, t', stopped) := openaiItems (t + 2) items
        if stopped then .check false :: .modelCall :: ops
        else .check false :: .modelCall :: ops ++ openaiLoop cancel t' (steps + 1) rest

/-- Monotone cancellation signal: once set it stays set
(`asyncio.Event` is never cleared by this code). -/
def CancelMono (cancel : Nat → Bool) : Prop :=
  ∀ u v, u ≤ v → cancel u = true → cancel v = true

/-- No new model call and no new action execution is started at any point
after a check has observed the cancellation signal. -/
def noWorkAfterCancel : List Op → Prop
  | [] => True
  | x :: rest =>
      (x = .check true → ∀ o ∈ rest, isWork o = false) ∧ noWorkAfterCancel rest

/-- `csw seen l`: every work op in `l` is separated from the previous work op
by at least one cancellation check (`seen` records whether a work op has
occurred since the last check). -/
def csw : Bool → List Op → Prop
  | _, [] => True
  | seen, .check _ :: rest => csw false rest
  | seen, x :: rest =>
      (isWork x = true → seen = false) ∧ csw (seen || isWork x) rest

/-- The `seen a work op since the last check` flag after a trace segment. -/
def cswAfter (seen : Bool) : List Op → Bool
  | [] => seen
  | .check _ :: rest => cswAfter false rest
  | x :: rest => cswAfter (seen || isWork x) rest

/-- Announce-before-result discipline of a trace, given the already-announced
ids: every result op's id was announced earlier. -/
def abrFrom (announced : List String) : List Op → Prop
  | [] => True
  | .resultEv id :: rest => id ∈ announced ∧ abrFrom announced rest
  | .announce id _ :: rest => abrFrom (id :: announced) rest
  | _ :: rest => abrFrom announced rest

end Loop

namespace BrowserUse

/-- An item placed on the browser_use agent's queue: an `AIMessage` (content
plus tool calls), a `ToolMessage`, the `{"stop": True}` dict, or `"END"`. -/
inductive QItem where
  | ai (content : String) (tool_calls : List Loop.TCall)
  | toolQ (tool_call_id : String) (content : String)
  | stopQ
  | endQ
deriving DecidableEq

def isPrefixOfB : List Char → List Char → Bool
  | [], _ => true
  | _ :: _, [] => false
  | a :: as, b :: bs => a = b && isPrefixOfB as bs

/-- `needle in hay` on strings, as a decidable list scan. -/
def containsSub (needle : List Char) : List Char → Bool
  | [] => isPrefixOfB needle []
  | c :: rest => isPrefixOfB needle (c :: rest) || containsSub needle rest

/-- The `is_special_message` test of the consumer loop: an `AIMessage` with
truthy content containing one of the three commentary markers. -/
def isSpecial : QItem → Bool
  | .ai content _ =>
      content ≠ "" &&
        (containsSub "*Memory*:".toList content.toList
          || containsSub "*Next Goal*:".toList content.toList
          || containsSub "*Previous Goal*:".toList content.toList)
  | _ => false

/-- One `(key, value)` entry of an action model's dump; `none` models a falsy
value (skipped), `some v` a truthy dict whose text (for `done`) or filtered
args are `v`. -/
abbrev ActionEntry := String × Option String

/-- The accumulation loop of `yield_data` over the action models: `done`
entries are queued immediately as text, other truthy entries accumulate a
tool call and a matching empty `ToolMessage`; ids are drawn from a counter
(modelling `uuid.uuid4()` freshness). -/
def collectActions :
    Nat → List ActionEntry → List QItem × List Loop.TCall × List QItem × Nat
  | n, [] => ([], [], [], n)
  | n, (key, val) :: rest =>
      match val with
      | none => collectActions n rest
      | some v =>
          if key = "done" then
            let (dones, tcs, touts, n') := collectActions n rest
            (.ai v [] :: .stopQ :: dones, tcs, touts, n')
          else
            let id := "tool_call_" ++ toString n
            let (dones, tcs, touts, n') := collectActions (n + 1) rest
            (dones, ⟨key, v, id⟩ :: tcs, .toolQ id "" :: touts, n')

/-- `yield_data(browser_state, agent_output, step_number)`: the items queued
for one step, in queue order. -/
def yield_data (step_number : Nat) (prevGoal memory nextGoal : String)
    (actions : List ActionEntry) (n : Nat) : List QItem × Nat :=
  let head :=
    (if step_number > 2 then
      [QItem.ai ("*Previous Goal*:\n" ++ prevGoal) [], QItem.stopQ]
     else [])
      ++ [QItem.ai ("*Memory*:\n" ++ memory) [], QItem.stopQ,
          QItem.ai ("*Next Goal*:\n" ++ nextGoal) [], QItem.stopQ]
  let (dones, tcs, touts, n') := collectActions n actions
  (head ++ dones ++ [QItem.ai "" tcs] ++ touts, n')

/-- One iteration's inputs to the consumer loop: the flags read during the
iteration (`cancel_event`, `agent._too_many_failures()`, `_agent_resumed`,
`agent._paused`) and the queue item received (`none` = `asyncio.TimeoutError`
after the 0.5s wait). -/
structure LoopInput where
  cancelI : Bool
  failuresI : Bool
  resumedI : Bool
  pausedI : Bool
  data : Option QItem
deriving DecidableEq

/-- Consumer-loop state: `pending_special_messages` and
`has_pending_messages`. -/
structure BUState where
  pending : List QItem
  hasPending : Bool
deriving DecidableEq

/-- One iteration of the browser_use consumer loop. Returns the items yielded
this iteration, the new state, and whether the loop continues. -/
def buStep (st : BUState) (inp : LoopInput) : List QItem × BUState × Bool :=
  if inp.cancelI then ([], st, false)
  else if inp.failuresI then ([], st, false)
  else
    match inp.data with
    | none =>
        if inp.resumedI ∧ st.hasPending then (st.pending, ⟨[], false⟩, true)
        else ([], st, true)
    | some d =>
        if d = .endQ then ([], st, false)
        else
          let (out1, st1) :=
            if inp.resumedI ∧ st.pending ≠ [] then (st.pending, (⟨[], false⟩ : BUState))
            else ([], st)
          if isSpecial d then
            if inp.resumedI ∨ inp.pausedI = false then (out1 ++ [d], st1, true)
            else (out1, ⟨st1.pending ++ [d], true⟩, true)
          else (out1 ++ [d], st1, true)

/-- The consumer loop over a sequence of iteration inputs. -/
def buRun : BUState → List LoopInput → List QItem
  | _, [] => []
  | st, inp :: rest =>
      let (out, st', cont) := buStep st inp
      if cont then out ++ buRun st' rest else out

def isToolQ : QItem → Bool
  | .toolQ _ _ => true
  | _ => false

/-- The reachable-flags protocol of the pause/resume control plane: the
paused flag can only be cleared by a resume (which sets the resumed flag
first), so any iteration after a paused one is itself paused or resumed. -/
def FlagsProtocol (inputs : List LoopInput) : Prop :=
  List.Pairwise
    (fun a b => a.pausedI = true → (b.pausedI = true ∨ b.resumedI = true))
    inputs

end BrowserUse

namespace Resume

/-- Outcome of one `resume_execution` attempt: a success dict, an error dict,
or a raised exception. -/
inductive RKind where
  | okR
  | failR (msg : String)
  | raisesR (msg : String)
deriving DecidableEq

/-- The HTTP-level response of `resume_session`. -/
inductive RResp where
  | success (msg : String)
  | errorR (msg : String)
deriving DecidableEq

/-- An observable side effect of `resume_session`: one `resume_execution`
call, or a backoff sleep. -/
inductive REff where
  | callResume (attempt : Nat)
  | sleepE (seconds : ℚ)
deriving DecidableEq

/-- `RESUME_COOLDOWN = 1.0` seconds. -/
def RESUME_COOLDOWN : ℚ := 1

def lookupLast (sid : String) : List (String × ℚ) → Option ℚ
  | [] => none
  | (s, t) :: rest => if s = sid then some t else lookupLast sid rest

def setLast (sid : String) (now : ℚ) : List (String × ℚ) → List (String × ℚ)
  | [] => [(sid, now)]
  | (s, t) :: rest =>
      if s = sid then (s, now) :: rest else (s, t) :: setLast sid now rest

/-- `session_last_resume`. -/
structure RState where
  last : List (String × ℚ)
deriving DecidableEq

/-- The `for attempt in range(max_attempts)` loop with `max_attempts = 2`,
unrolled: a success dict returns immediately; a non-success dict sleeps 0.2s
before the only retry; an exception records `last_error`, sleeps, and
retries; after the loop a recorded `last_error` is re-raised (surfacing as
an HTTP 500), otherwise the all-attempts-failed error dict is returned. -/
def resumeAttempts (env : Nat → RKind) : RResp × List REff :=
  match env 0 with
  | .okR => (.success "Agent resumed", [.callResume 0])
  | .failR _ =>
      match env 1 with
      | .okR => (.success "Agent resumed", [.callResume 0, .sleepE (1/5), .callResume 1])
      | .failR _ =>
          (.errorR "Failed to resume session after multiple attempts",
            [.callResume 0, .sleepE (1/5), .callResume 1])
      | .raisesR m2 =>
          (.errorR ("HTTP 500: " ++ m2),
            [.callResume 0, .sleepE (1/5), .callResume 1])
  | .raisesR m =>
      match env 1 with
      | .okR => (.success "Agent resumed", [.callResume 0, .sleepE (1/5), .callResume 1])
      | .failR _ =>
          (.errorR ("HTTP 500: " ++ m),
            [.callResume 0, .sleepE (1/5), .callResume 1])
      | .raisesR m2 =>
          (.errorR ("HTTP 500: " ++ m2),
            [.callResume 0, .sleepE (1/5), .callResume 1])

/-- `resume_session(session_id)` at wall-clock time `now` (calls are
sequential, so the per-session lock is always acquired): the cooldown check
answers success with no side effects; otherwise the last-resume timestamp is
recorded and the bounded attempt loop runs. -/
def resume_session (st : RState) (sid : String) (now : ℚ)
    (env : Nat → RKind) : RResp × RState × List REff :=
  let proceed : RResp × RState × List REff :=
    let st' : RState := ⟨setLast sid now st.last⟩
    let (resp, effs) := resumeAttempts env
    (resp, st', effs)
  match lookupLast sid st.last with
  | some tlast =>
      if now - tlast < RESUME_COOLDOWN then
        (.success "Resume already in progress", st, [])
      else proceed
  | none => proceed

end Resume

namespace Streamer

/-- The ids unconditionally announced by processing a chunk: those of a full
`tool_calls` chunk (the dispatch reaches that branch only when there are no
tool-call fragments). -/
def chunkAnnIds : Chunk → List String
  | .dict _ => []
  | .msg tccs tcs _ _ => if tccs = [] ∧ tcs ≠ [] then tcs.map (·.id) else []

/-- The id for which a chunk emits an `a:` result event, if any. -/
def chunkResultId : Chunk → Option String
  | .dict _ => none
  | .msg tccs tcs tcid _ =>
      if tccs = [] ∧ tcs = [] ∧ strTruthy tcid then some (tcid.getD "")
      else none

/-- Announce-before-result discipline of a chunk sequence, given the ids
already announced: every result chunk's id was announced by an earlier
full-tool-calls chunk. -/
def chunksABRFrom (announced : List String) : List Chunk → Prop
  | [] => True
  | c :: rest =>
      (∀ id, chunkResultId c = some id → id ∈ announced)
        ∧ chunksABRFrom (announced ++ chunkAnnIds c) rest

/-- Announce-before-result discipline of a wire-event sequence. -/
def wireABRFrom (announced : List String) : List WireEvent → Prop
  | [] => True
  | .result id _ :: rest => id ∈ announced ∧ wireABRFrom announced rest
  | .announce id _ _ :: rest => wireABRFrom (id :: announced) rest
  | _ :: rest => wireABRFrom announced rest

/-- The announced-id accumulator after a sequence of wire events. -/
def wireAnnAfter (announced : List String) : List WireEvent → List String
  | [] => announced
  | .announce id _ _ :: rest => wireAnnAfter (id :: announced) rest
  | _ :: rest => wireAnnAfter announced rest

end Streamer

namespace Trim

/-- The `call_id` key of a conversation item, when present. -/
def callId : ConvItem → Option String
  | .computerCallOutput cid _ => cid
  | .other _ => none

def countImagePieces (l : List Piece) : Nat := (l.filter isImagePiece).length

/-- Number of image content pieces carried by one message. -/
def msgImagePieces : Message → Nat
  | .toolMsg _ c => countImagePieces (msgContents c)
  | .otherMsg _ => 0

def totalImagePieces (msgs : List Message) : Nat :=
  (msgs.map msgImagePieces).sum

end Trim

-- ===== All further definitions go above this marker; theorems below. =====

namespace Streamer

/-! Helper lemmas about the streamer. -/

theorem lookupDraft_setDraft_self (idx : Nat) (d : Draft) (l : List (Nat × Draft)) :
    lookupDraft idx (setDraft idx d l) = some d := by
  induction l with
  | nil => simp [setDraft, lookupDraft]
  | cons p rest ih =>
      obtain ⟨i, d0⟩ := p
      by_cases hi : i = idx <;> simp [setDraft, lookupDraft, hi, ih]

/-- Every event emitted for a single tool-call argument fragment is an
announce event whose args validate as JSON. -/
theorem processToolFrag_events (vj : String → Bool) (st : StState)
    (tc : ToolChunkFrag) :
    ∀ ev ∈ (processToolFrag vj st tc).2,
      ∃ i n a, ev = .announce i n a ∧ vj a = true := by
  intro ev hev
  obtain ⟨index, tid, tname, targs⟩ := tc
  cases index with
  | none => simp [processToolFrag] at hev
  | some idx =>
      simp only [processToolFrag] at hev
      split at hev
      · split at hev
        · simp at hev
        · rename_i d hd
          split at hev
          · split at hev
            · rename_i hok hvj
              simp only [List.mem_singleton] at hev
              exact ⟨d.id, d.name, _, hev, hvj⟩
            · simp at hev
          · simp at hev
      · simp at hev

theorem processToolFrags_events (vj : String → Bool) (st : StState)
    (tcs : List ToolChunkFrag) :
    ∀ ev ∈ (processToolFrags vj st tcs).2,
      ∃ i n a, ev = .announce i n a ∧ vj a = true := by
  induction tcs generalizing st with
  | nil => intro ev hev; simp [processToolFrags] at hev
  | cons tc rest ih =>
      intro ev hev
      simp only [processToolFrags, List.mem_append] at hev
      rcases hev with h | h
      · exact processToolFrag_events vj st tc ev h
      · exact ih _ ev h

theorem contentEvents_textDelta (content : ChunkContent) :
    ∀ ev ∈ contentEvents content, ∃ s, ev = .textDelta s := by
  intro ev hev
  cases content with
  | str s =>
      simp only [contentEvents, List.mem_singleton] at hev
      exact ⟨s, hev⟩
  | items l =>
      simp only [contentEvents, List.mem_filterMap] at hev
      obtain ⟨p, _, hif⟩ := hev
      split at hif
      · cases hif; exact ⟨p.2, rfl⟩
      · cases hif

/-- Every event emitted inside the chunk loop is a text delta, an announce,
a result, or the mid-stream tool-calls finish; never the terminal finish and
never a stream error. -/
theorem processChunk_event_shapes (vj : String → Bool) (st : StState)
    (c : Chunk) : ∀ ev ∈ (processChunk vj st c).2,
      (∃ s, ev = .textDelta s) ∨ (∃ i n a, ev = .announce i n a) ∨
      (∃ i p, ev = .result i p) ∨ ev = .finishToolCalls := by
  intro ev hev
  cases c with
  | dict stop =>
      simp only [processChunk] at hev
      split at hev
      · simp only [List.mem_singleton] at hev
        exact Or.inr (Or.inr (Or.inr hev))
      · simp at hev
  | msg tccs tcs tcid content =>
      simp only [processChunk] at hev
      split at hev
      · obtain ⟨i, n, a, heq, _⟩ := processToolFrags_events vj st tccs ev hev
        exact Or.inr (Or.inl ⟨i, n, a, heq⟩)
      · split at hev
        · simp only [List.mem_append] at hev
          rcases hev with h | h
          · exact Or.inl (contentEvents_textDelta content ev h)
          · simp only [List.mem_map] at h
            obtain ⟨tc, _, htc⟩ := h
            exact Or.inr (Or.inl ⟨tc.id, tc.name, tc.args, htc.symm⟩)
        · split at hev
          · split at hev <;> split at hev <;>
              simp only [List.mem_cons, List.mem_singleton, List.not_mem_nil,
                or_false] at hev
            · rcases hev with h | h
              · exact Or.inr (Or.inr (Or.inl ⟨_, _, h⟩))
              · exact Or.inr (Or.inr (Or.inr h))
            · exact Or.inr (Or.inr (Or.inl ⟨_, _, hev⟩))
            · rcases hev with h | h
              · exact Or.inr (Or.inr (Or.inl ⟨_, _, h⟩))
              · exact Or.inr (Or.inr (Or.inr h))
            · exact Or.inr (Or.inr (Or.inl ⟨_, _, hev⟩))
          · split at hev
            · exact Or.inl (contentEvents_textDelta content ev hev)
            · simp at hev

theorem processChunk_no_finishStop (vj : String → Bool) (st : StState)
    (c : Chunk) : WireEvent.finishStop ∉ (processChunk vj st c).2 := by
  intro hmem
  rcases processChunk_event_shapes vj st c _ hmem with ⟨s, h⟩ | ⟨i, n, a, h⟩ |
    ⟨i, p, h⟩ | h <;> exact WireEvent.noConfusion h

theorem processChunk_no_streamError (vj : String → Bool) (st : StState)
    (c : Chunk) (m : String) :
    WireEvent.streamError m ∉ (processChunk vj st c).2 := by
  intro hmem
  rcases processChunk_event_shapes vj st c _ hmem with ⟨s, h⟩ | ⟨i, n, a, h⟩ |
    ⟨i, p, h⟩ | h <;> exact WireEvent.noConfusion h

theorem processChunks_no_finishStop (vj : String → Bool) (st : StState)
    (cs : List Chunk) : WireEvent.finishStop ∉ (processChunks vj st cs).2 := by
  induction cs generalizing st with
  | nil => simp [processChunks]
  | cons c rest ih =>
      simp only [processChunks, List.mem_append]
      intro h
      rcases h with h | h
      · exact processChunk_no_finishStop vj st c h
      · exact ih _ h

theorem processChunks_no_streamError (vj : String → Bool) (st : StState)
    (cs : List Chunk) (m : String) :
    WireEvent.streamError m ∉ (processChunks vj st cs).2 := by
  induction cs generalizing st with
  | nil => simp [processChunks]
  | cons c rest ih =>
      simp only [processChunks, List.mem_append]
      intro h
      rcases h with h | h
      · exact processChunk_no_streamError vj st c m h
      · exact ih _ h

/-- What `initDraft` leaves at the fragment's own index. -/
theorem lookupDraft_initDraft (st : StState) (idx : Nat) (tid : Option String)
    (tname : String) :
    lookupDraft idx (initDraft st idx tid tname).drafts
      = if (lookupDraft idx st.drafts).isNone ∧ strTruthy tid then
          some ⟨tid.getD "", tname, ""⟩
        else lookupDraft idx st.drafts := by
  unfold initDraft
  split <;> simp_all [lookupDraft_setDraft_self]

/-- Equation for a fragment whose args are absent or empty. -/
theorem processToolFrag_eq_noargs (vj : String → Bool) (st : StState)
    (idx : Nat) (tid : Option String) (tname : String) (targs : Option String)
    (hargs : strTruthy targs = false) :
    processToolFrag vj st ⟨some idx, tid, tname, targs⟩
      = (initDraft st idx tid tname, []) := by
  simp [processToolFrag, hargs]

/-- Equation for a fragment with args but no draft at its index
(the first fragment of an index arrived without an id). -/
theorem processToolFrag_eq_nodraft (vj : String → Bool) (st : StState)
    (idx : Nat) (tid : Option String) (tname : String) (targs : Option String)
    (hargs : strTruthy targs = true)
    (hlk : lookupDraft idx (initDraft st idx tid tname).drafts = none) :
    processToolFrag vj st ⟨some idx, tid, tname, targs⟩
      = (initDraft st idx tid tname, []) := by
  simp [processToolFrag, hargs, hlk]

/-- Equation for a fragment with args appended to an existing draft: the args
are concatenated, and an announce event is emitted exactly when the buffer is
complete and parses as JSON. -/
theorem processToolFrag_eq_append (vj : String → Bool) (st : StState)
    (idx : Nat) (tid : Option String) (tname : String) (targs : Option String)
    (d : Draft) (hargs : strTruthy targs = true)
    (hlk : lookupDraft idx (initDraft st idx tid tname).drafts = some d) :
    processToolFrag vj st ⟨some idx, tid, tname, targs⟩
      = ({ initDraft st idx tid tname with
            drafts := setDraft idx ⟨d.id, d.name, d.arguments ++ targs.getD ""⟩
              (initDraft st idx tid tname).drafts },
         if (d.id ≠ "" ∧ d.name ≠ "" ∧ d.arguments ++ targs.getD "" ≠ "")
             ∧ vj (d.arguments ++ targs.getD "") then
           [.announce d.id d.name (d.arguments ++ targs.getD "")]
         else []) := by
  simp only [processToolFrag, hargs, if_true, hlk]
  by_cases hok : d.id ≠ "" ∧ d.name ≠ "" ∧ d.arguments ++ targs.getD "" ≠ ""
  · by_cases hvj : vj (d.arguments ++ targs.getD "") = true
    · simp [hok, hvj]
    · simp [hok, hvj]
  · simp [hok]

/-- An unparseable accumulated buffer never lets its fragment emit an event. -/
theorem processToolFrag_silent_of_invalid (vj : String → Bool) (st : StState)
    (idx : Nat) (tid : Option String) (tname : String) (targs : Option String) :
    ∀ d, lookupDraft idx
          (processToolFrag vj st ⟨some idx, tid, tname, targs⟩).1.drafts = some d →
      vj d.arguments = false →
      (processToolFrag vj st ⟨some idx, tid, tname, targs⟩).2 = [] := by
  intro d hd hvj
  by_cases hargs : strTruthy targs = true
  · cases hlk : lookupDraft idx (initDraft st idx tid tname).drafts with
    | none => rw [processToolFrag_eq_nodraft vj st idx tid tname targs hargs hlk]
    | some d0 =>
        rw [processToolFrag_eq_append vj st idx tid tname targs d0 hargs hlk] at hd ⊢
        simp only [lookupDraft_setDraft_self, Option.some.injEq] at hd
        subst hd
        simp [hvj]
  · rw [processToolFrag_eq_noargs vj st idx tid tname targs
      (by simpa using hargs)]

/-- The events emitted for a fragment depend only on the accumulated draft at
the fragment's index: re-delivering the same fragments over the same buffer
yields the same announcement. -/
theorem processToolFrag_deterministic (vj : String → Bool) (st st' : StState)
    (idx : Nat) (tid : Option String) (tname : String) (targs : Option String)
    (h : lookupDraft idx st.drafts = lookupDraft idx st'.drafts) :
    (processToolFrag vj st ⟨some idx, tid, tname, targs⟩).2
      = (processToolFrag vj st' ⟨some idx, tid, tname, targs⟩).2 := by
  have hinit : lookupDraft idx (initDraft st idx tid tname).drafts
      = lookupDraft idx (initDraft st' idx tid tname).drafts := by
    rw [lookupDraft_initDraft, lookupDraft_initDraft, h]
  by_cases hargs : strTruthy targs = true
  · cases hlk : lookupDraft idx (initDraft st idx tid tname).drafts with
    | none =>
        rw [processToolFrag_eq_nodraft vj st idx tid tname targs hargs hlk,
          processToolFrag_eq_nodraft vj st' idx tid tname targs hargs
            (hinit ▸ hlk)]
    | some d =>
        rw [processToolFrag_eq_append vj st idx tid tname targs d hargs hlk,
          processToolFrag_eq_append vj st' idx tid tname targs d hargs
            (hinit ▸ hlk)]
  · rw [processToolFrag_eq_noargs vj st idx tid tname targs
        (by simpa using hargs),
      processToolFrag_eq_noargs vj st' idx tid tname targs
        (by simpa using hargs)]

/-- Appending a fragment's args concatenates them onto the accumulated buffer. -/
theorem processToolFrag_accumulates (vj : String → Bool) (st : StState)
    (idx : Nat) (tid : Option String) (tname : String) (targs : Option String)
    (d : Draft) (hd : lookupDraft idx st.drafts = some d)
    (hargs : strTruthy targs = true) :
    lookupDraft idx (processToolFrag vj st ⟨some idx, tid, tname, targs⟩).1.drafts
      = some ⟨d.id, d.name, d.arguments ++ targs.getD ""⟩ := by
  have hlk : lookupDraft idx (initDraft st idx tid tname).drafts = some d := by
    rw [lookupDraft_initDraft, hd]
    simp
  rw [processToolFrag_eq_append vj st idx tid tname targs d hargs hlk]
  simp [lookupDraft_setDraft_self]

/-- An emitted announce event carries exactly the accumulated buffer of its
index in the post-state. -/
theorem processToolFrag_announce_matches_buffer (vj : String → Bool)
    (st : StState) (idx : Nat) (tid : Option String) (tname : String)
    (targs : Option String) :
    ∀ i n a, WireEvent.announce i n a
        ∈ (processToolFrag vj st ⟨some idx, tid, tname, targs⟩).2 →
      lookupDraft idx
          (processToolFrag vj st ⟨some idx, tid, tname, targs⟩).1.drafts
        = some ⟨i, n, a⟩ ∧ vj a = true := by
  intro i n a hmem
  by_cases hargs : strTruthy targs = true
  · cases hlk : lookupDraft idx (initDraft st idx tid tname).drafts with
    | none =>
        rw [processToolFrag_eq_nodraft vj st idx tid tname targs hargs hlk]
          at hmem
        simp at hmem
    | some d =>
        rw [processToolFrag_eq_append vj st idx tid tname targs d hargs hlk]
          at hmem ⊢
        split at hmem
        · rename_i hcond
          simp only [List.mem_singleton, WireEvent.announce.injEq] at hmem
          obtain ⟨hi, hn, ha⟩ := hmem
          subst hi; subst hn; subst ha
          exact ⟨by simp [lookupDraft_setDraft_self], hcond.2⟩
        · simp at hmem
  · rw [processToolFrag_eq_noargs vj st idx tid tname targs
      (by simpa using hargs)] at hmem
    simp at hmem

end Streamer


section StreamerClaims

open Streamer

/-- C1: every wire stream produced by the re-encoder ends with exactly one
terminal Finish event, and on an iteration exception the StreamError event
carrying the exception message is emitted directly before that single
terminal Finish. -/
theorem C1_wire_stream_terminal_finish (vj : String → Bool)
    (chunks : List Chunk) (err : Option String) :
    (stream_vercel_format vj chunks err).getLast? = some WireEvent.finishStop ∧
    (stream_vercel_format vj chunks err).count WireEvent.finishStop = 1 ∧
    ∀ m, err = some m →
      ∃ body, stream_vercel_format vj chunks err
            = body ++ [WireEvent.streamError m, WireEvent.finishStop]
          ∧ WireEvent.finishStop ∉ body
          ∧ ∀ m', WireEvent.streamError m' ∉ body := by
  refine ⟨?_, ?_, ?_⟩
  · unfold stream_vercel_format
    exact List.getLast?_concat _
  · unfold stream_vercel_format
    rw [List.count_append, List.count_append]
    have h1 : (processChunks vj ⟨[], []⟩ chunks).2.count WireEvent.finishStop = 0 :=
      List.count_eq_zero.mpr (processChunks_no_finishStop vj ⟨[], []⟩ chunks)
    cases err with
    | none => simp [h1]
    | some m =>
        have h2 : ([WireEvent.streamError m]).count WireEvent.finishStop = 0 :=
          List.count_eq_zero.mpr (by simp)
        simp [h1, h2]
  · intro m hm
    subst hm
    refine ⟨(processChunks vj ⟨[], []⟩ chunks).2, ?_,
      processChunks_no_finishStop vj ⟨[], []⟩ chunks,
      fun m' => processChunks_no_streamError vj ⟨[], []⟩ chunks m'⟩
    unfold stream_vercel_format
    simp

/-- Witness for C1: a concrete stream whose iteration raises `"boom"`. -/
theorem C1_witness :
    (some "boom" : Option String) = some "boom" ∧
    ∃ body, stream_vercel_format (fun _ => true) [Chunk.dict true] (some "boom")
          = body ++ [WireEvent.streamError "boom", WireEvent.finishStop]
        ∧ WireEvent.finishStop ∉ body := by
  refine ⟨rfl, ?_⟩
  obtain ⟨-, -, h3⟩ :=
    C1_wire_stream_terminal_finish (fun _ => true) [Chunk.dict true] (some "boom")
  obtain ⟨body, h1, h2, -⟩ := h3 "boom" rfl
  exact ⟨body, h1, h2⟩

/-- C3: per-index fragment assembly of tool-call arguments. Announce events
are emitted only when the accumulated buffer parses as JSON; a fragment whose
accumulated buffer does not parse produces no event at all (and no error);
the emitted events depend only on the accumulated buffer at the fragment's
index, so re-delivering the same fragments yields the same announced args;
args accumulate by concatenation and the announced args equal the
accumulated buffer. -/
theorem C3_fragment_assembly (vj : String → Bool) (st st' : StState)
    (idx : Nat) (tid : Option String) (tname : String) (targs : Option String) :
    (∀ ev ∈ (processToolFrag vj st ⟨some idx, tid, tname, targs⟩).2,
        ∃ i n a, ev = .announce i n a ∧ vj a = true) ∧
    (∀ d, lookupDraft idx
          (processToolFrag vj st ⟨some idx, tid, tname, targs⟩).1.drafts = some d →
        vj d.arguments = false →
        (processToolFrag vj st ⟨some idx, tid, tname, targs⟩).2 = []) ∧
    (lookupDraft idx st.drafts = lookupDraft idx st'.drafts →
        (processToolFrag vj st ⟨some idx, tid, tname, targs⟩).2
          = (processToolFrag vj st' ⟨some idx, tid, tname, targs⟩).2) ∧
    (∀ d, lookupDraft idx st.drafts = some d → strTruthy targs = true →
        lookupDraft idx
            (processToolFrag vj st ⟨some idx, tid, tname, targs⟩).1.drafts
          = some ⟨d.id, d.name, d.arguments ++ targs.getD ""⟩) ∧
    (∀ i n a, WireEvent.announce i n a
          ∈ (processToolFrag vj st ⟨some idx, tid, tname, targs⟩).2 →
        lookupDraft idx
            (processToolFrag vj st ⟨some idx, tid, tname, targs⟩).1.drafts
          = some ⟨i, n, a⟩ ∧ vj a = true) :=
  ⟨processToolFrag_events vj st ⟨some idx, tid, tname, targs⟩,
    processToolFrag_silent_of_invalid vj st idx tid tname targs,
    fun h => processToolFrag_deterministic vj st st' idx tid tname targs h,
    fun d hd hargs => processToolFrag_accumulates vj st idx tid tname targs d hd hargs,
    processToolFrag_announce_matches_buffer vj st idx tid tname targs⟩

/-- Witness for C3: an argument string split across two fragments
(`"ab"` is the only buffer the JSON validator accepts): the first fragment
(buffer `"a"`) emits nothing, and after the second fragment the buffer is
the concatenation `"ab"`. -/
theorem C3_witness :
    (processToolFrag (fun s => s == "ab")
        ⟨[], []⟩ ⟨some 0, some "t1", "go", some "a"⟩).2 = [] ∧
    lookupDraft 0 (processToolFrag (fun s => s == "ab")
        ⟨[(0, ⟨"t1", "go", "a"⟩)], []⟩
        ⟨some 0, none, "", some "b"⟩).1.drafts = some ⟨"t1", "go", "ab"⟩ := by
  constructor
  · exact (C3_fragment_assembly (fun s => s == "ab") ⟨[], []⟩ ⟨[], []⟩
      0 (some "t1") "go" (some "a")).2.1 ⟨"t1", "go", "a"⟩ (by decide) (by decide)
  · exact (C3_fragment_assembly (fun s => s == "ab")
      ⟨[(0, ⟨"t1", "go", "a"⟩)], []⟩ ⟨[], []⟩ 0 none "" (some "b")).2.2.2.1
      ⟨"t1", "go", "a"⟩ (by decide) (by decide)

/-- C8: when processing a tool-call result empties the pending set, the
mid-stream Finish(tool-calls) event is emitted directly after that result's
event (and the draft map is reset); otherwise only the result event is
emitted; the mid-stream Finish is a different event from the terminal
Finish of the finally path. -/
theorem C8_midstream_finish_after_last_result (vj : String → Bool)
    (st : StState) (tcid : Option String) (content : ChunkContent)
    (h : strTruthy tcid = true) :
    (((if tcid.getD "" ∈ st.pending then pendingRemove st.pending (tcid.getD "")
        else st.pending) = []) →
      processChunk vj st (.msg [] [] tcid content)
        = (⟨[], []⟩, [.result (tcid.getD "") content, .finishToolCalls])) ∧
    (((if tcid.getD "" ∈ st.pending then pendingRemove st.pending (tcid.getD "")
        else st.pending) ≠ []) →
      processChunk vj st (.msg [] [] tcid content)
        = (⟨st.drafts, if tcid.getD "" ∈ st.pending
              then pendingRemove st.pending (tcid.getD "") else st.pending⟩,
            [.result (tcid.getD "") content])) ∧
    WireEvent.finishToolCalls ≠ WireEvent.finishStop := by
  refine ⟨?_, ?_, by simp⟩
  · intro hp
    by_cases hmem : tcid.getD "" ∈ st.pending
    · rw [if_pos hmem] at hp
      simp [processChunk, h, hmem, hp]
    · rw [if_neg hmem] at hp
      simp [processChunk, h, hmem, hp]
  · intro hp
    by_cases hmem : tcid.getD "" ∈ st.pending
    · rw [if_pos hmem] at hp
      simp [processChunk, h, hmem, hp]
    · rw [if_neg hmem] at hp
      simp [processChunk, h, hmem, hp]

/-- Witness for C8: a result for the only pending id triggers the mid-stream
tool-calls finish; a result with another id still pending does not. -/
theorem C8_witness :
    processChunk (fun _ => true) ⟨[], ["t1"]⟩
        (.msg [] [] (some "t1") (.str "ok"))
      = (⟨[], []⟩, [.result "t1" (.str "ok"), .finishToolCalls]) ∧
    processChunk (fun _ => true) ⟨[], ["t1", "t2"]⟩
        (.msg [] [] (some "t1") (.str "ok"))
      = (⟨[], ["t2"]⟩, [.result "t1" (.str "ok")]) := by
  constructor
  · exact (C8_midstream_finish_after_last_result (fun _ => true) ⟨[], ["t1"]⟩
      (some "t1") (.str "ok") (by decide)).1 (by decide)
  · exact (C8_midstream_finish_after_last_result (fun _ => true) ⟨[], ["t1", "t2"]⟩
      (some "t1") (.str "ok") (by decide)).2.1 (by decide)

end StreamerClaims

namespace Trim

theorem trimReplace_isImage (it : ConvItem) :
    isImageItem (trimReplace it) = isImageItem it := by
  cases it <;> rfl

theorem trimReplace_idem (it : ConvItem) :
    trimReplace (trimReplace it) = trimReplace it := by
  cases it with
  | computerCallOutput cid out => simp [trimReplace]
  | other t => rfl

theorem countImages_cons (x : ConvItem) (l : List ConvItem) :
    countImages (x :: l) = (if isImageItem x then 1 else 0) + countImages l := by
  unfold countImages
  rw [List.filter_cons]
  split <;> simp [Nat.add_comm]

theorem replaceFirstImages_zero (l : List ConvItem) :
    replaceFirstImages 0 l = l := by
  cases l <;> rfl

theorem countImages_replaceFirstImages (n : Nat) (l : List ConvItem) :
    countImages (replaceFirstImages n l) = countImages l := by
  induction l generalizing n with
  | nil => cases n <;> rfl
  | cons x rest ih =>
      cases n with
      | zero => rfl
      | succ m =>
          by_cases hx : isImageItem x = true
          · simp [replaceFirstImages, hx, countImages_cons,
              trimReplace_isImage, ih]
          · simp [replaceFirstImages, hx, countImages_cons, ih]

theorem replaceFirstImages_idem (n : Nat) (l : List ConvItem) :
    replaceFirstImages n (replaceFirstImages n l) = replaceFirstImages n l := by
  induction l generalizing n with
  | nil => cases n <;> rfl
  | cons x rest ih =>
      cases n with
      | zero => rw [replaceFirstImages_zero, replaceFirstImages_zero]
      | succ m =>
          by_cases hx : isImageItem x = true
          · simp [replaceFirstImages, hx, trimReplace_isImage,
              trimReplace_idem, ih]
          · simp [replaceFirstImages, hx, ih]

/-- `ConversationManager.trim_images` is idempotent. -/
theorem trim_images_idem (K : Nat) (items : List ConvItem) :
    trim_images K (trim_images K items) = trim_images K items := by
  unfold trim_images
  by_cases h1 : countImages items ≤ K
  · simp [h1]
  · simp only [h1, if_false]
    by_cases hK : K = 0
    · subst hK
      simp [replaceFirstImages_zero, h1]
    · simp only [hK, if_false]
      rw [countImages_replaceFirstImages]
      simp only [h1, if_false, hK]
      exact replaceFirstImages_idem _ _

theorem countImagePieces_cons (p : Piece) (l : List Piece) :
    countImagePieces (p :: l)
      = (if isImagePiece p then 1 else 0) + countImagePieces l := by
  unfold countImagePieces
  rw [List.filter_cons]
  split <;> simp [Nat.add_comm]

theorem trimPieces_spec (l : List Piece) : ∀ keep : Int,
    (trimPieces keep l).1 ≤ keep ∧
    (0 ≤ keep → 0 ≤ (trimPieces keep l).1) ∧
    ((countImagePieces (trimPieces keep l).2 : Int)
      ≤ keep - (trimPieces keep l).1) := by
  induction l with
  | nil => intro keep; simp [trimPieces, countImagePieces]
  | cons p rest ih =>
      intro keep
      by_cases hp : isImagePiece p = true
      · by_cases hk : keep > 0
        · obtain ⟨ih1, ih2, ih3⟩ := ih (keep - 1)
          simp only [trimPieces, trimPiece, hp, if_true, hk,
            countImagePieces_cons]
          refine ⟨by omega, fun _ => by omega, ?_⟩
          push_cast
          omega
        · obtain ⟨ih1, ih2, ih3⟩ := ih keep
          simp only [trimPieces, trimPiece, hp, if_true, hk, if_false,
            countImagePieces_cons]
          have hplace : isImagePiece placeholderPiece = false := rfl
          rw [hplace]
          refine ⟨by omega, fun h => by omega, ?_⟩
          push_cast
          omega
      · obtain ⟨ih1, ih2, ih3⟩ := ih keep
        simp only [trimPieces, trimPiece, hp, Bool.false_eq_true, if_false,
          countImagePieces_cons]
        refine ⟨by omega, fun h => by omega, ?_⟩
        push_cast
        omega

theorem trimMsgStep_spec (m : Message) (keep : Int) :
    (trimMsgStep keep m).1 ≤ keep ∧
    (0 ≤ keep → 0 ≤ (trimMsgStep keep m).1) ∧
    ((msgImagePieces (trimMsgStep keep m).2 : Int)
      ≤ keep - (trimMsgStep keep m).1) := by
  cases m with
  | otherMsg t => simp [trimMsgStep, msgImagePieces]
  | toolMsg cid content =>
      cases content with
      | listC l =>
          obtain ⟨h1, h2, h3⟩ := trimPieces_spec l keep
          exact ⟨h1, h2, h3⟩
      | dictC p =>
          by_cases hp : isImagePiece p = true
          · by_cases hk : keep > 0
            · have e : trimMsgStep keep (Message.toolMsg cid (.dictC p))
                  = (keep - 1, Message.toolMsg cid (.dictC p)) := by
                simp [trimMsgStep, hp, hk]
              rw [e]
              have him : msgImagePieces (Message.toolMsg cid (.dictC p)) = 1 := by
                simp [msgImagePieces, msgContents, countImagePieces,
                  List.filter, hp]
              refine ⟨by omega, fun _ => by omega, ?_⟩
              rw [him]
              push_cast
              omega
            · have e : trimMsgStep keep (Message.toolMsg cid (.dictC p))
                  = (keep, Message.toolMsg cid (.dictC placeholderPiece)) := by
                simp [trimMsgStep, hp, hk]
              rw [e]
              have him : msgImagePieces
                  (Message.toolMsg cid (.dictC placeholderPiece)) = 0 := rfl
              refine ⟨le_refl _, fun h => h, ?_⟩
              rw [him]
              simp
          · have e : trimMsgStep keep (Message.toolMsg cid (.dictC p))
                = (keep, Message.toolMsg cid (.dictC p)) := by
              simp [trimMsgStep, hp]
            rw [e]
            have him : msgImagePieces (Message.toolMsg cid (.dictC p)) = 0 := by
              simp [msgImagePieces, msgContents, countImagePieces,
                List.filter, hp]
            refine ⟨le_refl _, fun h => h, ?_⟩
            rw [him]
            simp
      | strC s =>
          simp [trimMsgStep, msgImagePieces, msgContents, countImagePieces,
            isImagePiece]

theorem trimMsgsPass_bound (msgs : List Message) : ∀ keep : Int, 0 ≤ keep →
    (totalImagePieces (trimMsgsPass keep msgs) : Int) ≤ keep := by
  induction msgs with
  | nil =>
      intro keep hk
      simpa [trimMsgsPass, totalImagePieces] using hk
  | cons m rest ih =>
      intro keep hk
      obtain ⟨h1, h2, h3⟩ := trimMsgStep_spec m keep
      have hrest := ih (trimMsgStep keep m).1 (h2 hk)
      have e : totalImagePieces (trimMsgsPass keep (m :: rest))
          = msgImagePieces (trimMsgStep keep m).2
            + totalImagePieces (trimMsgsPass (trimMsgStep keep m).1 rest) := by
        simp [trimMsgsPass, totalImagePieces]
      rw [e]
      push_cast
      omega

theorem msgHasImage_pieces_pos (m : Message) (h : msgHasImage m = true) :
    0 < msgImagePieces m := by
  cases m with
  | otherMsg t => simp [msgHasImage] at h
  | toolMsg cid content =>
      simp only [msgHasImage, List.any_eq_true] at h
      obtain ⟨p, hp, hip⟩ := h
      simp only [msgImagePieces, countImagePieces]
      rw [List.length_pos]
      intro hempty
      have : p ∈ List.filter isImagePiece (msgContents content) :=
        List.mem_filter.mpr ⟨hp, hip⟩
      rw [hempty] at this
      exact List.not_mem_nil p this

theorem countImageMessages_le_totalImagePieces (msgs : List Message) :
    countImageMessages msgs ≤ totalImagePieces msgs := by
  induction msgs with
  | nil => simp [countImageMessages, totalImagePieces]
  | cons m rest ih =>
      unfold countImageMessages totalImagePieces at ih ⊢
      rw [List.filter_cons]
      simp only [List.map_cons, List.sum_cons]
      split
      · rename_i hm
        have := msgHasImage_pieces_pos m hm
        simp only [List.length_cons]
        omega
      · omega

/-- `trim_images_from_messages` is idempotent. -/
theorem trim_msgs_idem (msgs : List Message) (K : Int) :
    trim_images_from_messages (trim_images_from_messages msgs K) K
      = trim_images_from_messages msgs K := by
  unfold trim_images_from_messages
  by_cases h0 : K = 0 ∨ K < 0
  · simp [h0]
  · simp only [h0, if_false]
    by_cases h1 : (countImageMessages msgs : Int) ≤ K
    · simp [h1, h0]
    · simp only [h1, if_false, h0]
      have hK : 0 ≤ K := by
        push_neg at h0
        omega
      have hc : (countImageMessages (trimMsgsPass K msgs) : Int) ≤ K := by
        calc (countImageMessages (trimMsgsPass K msgs) : Int)
            ≤ (totalImagePieces (trimMsgsPass K msgs) : Int) := by
              exact_mod_cast countImageMessages_le_totalImagePieces _
          _ ≤ K := trimMsgsPass_bound msgs K hK
      simp [hc]

end Trim

section TrimClaims

open Trim

/-- C4: at the concrete failing input — two image-bearing tool results and a
retention bound of 1 — `trim_images_from_messages` keeps the OLDEST image and
replaces the most recent one with the placeholder, contradicting the claim
(and the function's own docstring) that the K most-recent artifacts retain
their payload; `ConversationManager.trim_images` on the mirrored input keeps
the most recent image as claimed. -/
theorem C4_claude_trim_keeps_oldest :
    trim_images_from_messages
        [Message.toolMsg "t1" (.listC [.dictPiece "image" "IMG1"]),
         Message.toolMsg "t2" (.listC [.dictPiece "image" "IMG2"])] 1
      = [Message.toolMsg "t1" (.listC [.dictPiece "image" "IMG1"]),
         Message.toolMsg "t2" (.listC [placeholderPiece])] ∧
    trim_images 1
        [ConvItem.computerCallOutput (some "c1") ⟨"input_image", "D1"⟩,
         ConvItem.computerCallOutput (some "c2") ⟨"input_image", "D2"⟩]
      = [ConvItem.computerCallOutput (some "c1")
            ⟨"input_image", MINIMAL_BASE64_IMAGE⟩,
         ConvItem.computerCallOutput (some "c2") ⟨"input_image", "D2"⟩] := by
  constructor <;> rfl

/-- C10: both artifact-trimming operations are idempotent: a second pass
replaces already-placeholder artifacts with the identical placeholder
(`ConversationManager.trim_images`) or is a no-op because the retained image
count is within the bound (`trim_images_from_messages`). -/
theorem C10_trim_idempotent :
    (∀ (K : Nat) (items : List ConvItem),
      trim_images K (trim_images K items) = trim_images K items) ∧
    (∀ (msgs : List Message) (K : Int),
      trim_images_from_messages (trim_images_from_messages msgs K) K
        = trim_images_from_messages msgs K) :=
  ⟨fun K items => trim_images_idem K items,
    fun msgs K => trim_msgs_idem msgs K⟩

end TrimClaims

section ExecClaims

open Exec

/-- C5 counterexample: the openai agent's `_execute_computer_action` lets an
automation-layer exception propagate to its caller (`except ... raise`), and
on an already-closed page returns an empty screenshot string rather than a
Failure outcome. -/
theorem C5_counterexample_agent_executor_raises :
    execute_computer_action
        ⟨false, "https://x", fun _ => .error "boom", .ok "SHOT"⟩
        (.click 1 2 "left")
      = .error "boom" ∧
    execute_computer_action
        ⟨true, "https://x", fun _ => .ok (), .ok "SHOT"⟩
        (.click 1 2 "left")
      = .ok "" := ⟨rfl, rfl⟩

/-- C5 amended: `SteelComputer.execute_action` never lets an exception
propagate — a closed page yields the fixed error outcome and any exception of
the try body is converted into an error outcome carrying its message — while
the openai agent's `_execute_computer_action` returns `""` on a closed page
and re-raises automation exceptions to its caller. -/
theorem C5_executor_error_conversion :
    (∀ (env : PageEnv) (a : Action), ∃ o, execute_action env a = .ok o) ∧
    (∀ (env : PageEnv) (a : Action), env.is_closed = true →
      execute_action env a
        = .ok (.errorOutcome "Page is closed; cannot execute action")) ∧
    (∀ (env : PageEnv) (a : Action) (e : String), env.is_closed = false →
      execute_action_body env a = .error e →
      execute_action env a = .ok (.errorOutcome e)) ∧
    (∀ (env : PageEnv) (a : Action), env.is_closed = true →
      execute_computer_action env a = .ok "") ∧
    (∀ (env : PageEnv) (a : Action) (e : String), env.is_closed = false →
      runPrims env (agentActionPrims a) = .error e →
      execute_computer_action env a = .error e) := by
  refine ⟨?_, ?_, ?_, ?_, ?_⟩
  · intro env a
    unfold execute_action
    split
    · exact ⟨_, rfl⟩
    · cases execute_action_body env a <;> exact ⟨_, rfl⟩
  · intro env a h
    unfold execute_action
    rw [if_pos h]
  · intro env a e hcl hbody
    unfold execute_action
    rw [if_neg (by simp [hcl]), hbody]
  · intro env a h
    unfold execute_computer_action
    rw [if_pos h]
  · intro env a e hcl hrun
    unfold execute_computer_action
    rw [if_neg (by simp [hcl]), hrun]

/-- Witness for C5's amended statement at concrete environments. -/
theorem C5_executor_witness :
    execute_action ⟨true, "https://x", fun _ => .ok (), .ok "SHOT"⟩
        (.click 1 2 "left")
      = .ok (.errorOutcome "Page is closed; cannot execute action") ∧
    execute_action ⟨false, "https://x", fun _ => .error "boom", .ok "SHOT"⟩
        (.click 1 2 "left")
      = .ok (.errorOutcome "boom") := by
  constructor
  · exact C5_executor_error_conversion.2.1
      ⟨true, "https://x", fun _ => .ok (), .ok "SHOT"⟩ (.click 1 2 "left") rfl
  · exact C5_executor_error_conversion.2.2.1
      ⟨false, "https://x", fun _ => .error "boom", .ok "SHOT"⟩
      (.click 1 2 "left") "boom" rfl rfl

end ExecClaims

section ResumeClaims

open Resume

/-- C9: a second resume for the same session within the cooldown window is
answered with success without repeating any side effect; two rapid resume
calls therefore produce exactly one effective `resume_execution` call and
two success responses; and outside the cooldown a failed resume is retried
at most once (two attempts total) with a fixed 0.2s backoff between them. -/
theorem C9_resume_debounce_and_retry :
    (∀ (st : RState) (sid : String) (now tlast : ℚ) (env : Nat → RKind),
      lookupLast sid st.last = some tlast → now - tlast < RESUME_COOLDOWN →
      resume_session st sid now env
        = (.success "Resume already in progress", st, [])) ∧
    (∀ (sid : String) (t0 t1 : ℚ) (env : Nat → RKind),
      env 0 = .okR → t1 - t0 < RESUME_COOLDOWN →
      resume_session ⟨[]⟩ sid t0 env
          = (.success "Agent resumed", ⟨[(sid, t0)]⟩, [.callResume 0])
        ∧ resume_session ⟨[(sid, t0)]⟩ sid t1 env
          = (.success "Resume already in progress", ⟨[(sid, t0)]⟩, [])) ∧
    (∀ env : Nat → RKind,
      ((resumeAttempts env).2.filter fun e => match e with
          | .callResume _ => true | _ => false).length ≤ 2 ∧
      (env 0 ≠ .okR → (resumeAttempts env).2
          = [.callResume 0, .sleepE (1/5), .callResume 1])) := by
  refine ⟨?_, ?_, ?_⟩
  · intro st sid now tlast env hl hcd
    unfold resume_session
    rw [hl]
    simp [hcd]
  · intro sid t0 t1 env henv hcd
    constructor
    · unfold resume_session
      simp [lookupLast, setLast, resumeAttempts, henv]
    · unfold resume_session
      simp [lookupLast, hcd]
  · intro env
    constructor
    · rcases h0 : env 0 with _ | m | m <;> rcases h1 : env 1 with _ | m2 | m2 <;>
        simp [resumeAttempts, h0, h1]
    · intro hne
      rcases h0 : env 0 with _ | m | m
      · exact absurd h0 hne
      · rcases h1 : env 1 with _ | m2 | m2 <;> simp [resumeAttempts, h0, h1]
      · rcases h1 : env 1 with _ | m2 | m2 <;> simp [resumeAttempts, h0, h1]

/-- Witness for C9: a concrete session resumed at time 0 and again at 0.5. -/
theorem C9_witness :
    resume_session ⟨[]⟩ "s1" 0 (fun _ => .okR)
        = (.success "Agent resumed", ⟨[("s1", 0)]⟩, [.callResume 0]) ∧
    resume_session ⟨[("s1", 0)]⟩ "s1" (1/2) (fun _ => .okR)
        = (.success "Resume already in progress", ⟨[("s1", 0)]⟩, []) := by
  have h := C9_resume_debounce_and_retry.2.1 "s1" 0 (1/2) (fun _ => .okR)
    rfl (by norm_num [Resume.RESUME_COOLDOWN])
  exact ⟨h.1, h.2⟩

end ResumeClaims

namespace Loop

theorem abrFrom_mono : ∀ (l : List Op) (A B : List String),
    (∀ x ∈ A, x ∈ B) → abrFrom A l → abrFrom B l := by
  intro l
  induction l with
  | nil => intro A B hAB h; trivial
  | cons x rest ih =>
      intro A B hAB h
      cases x with
      | resultEv id =>
          obtain ⟨hm, hrest⟩ := h
          exact ⟨hAB _ hm, ih A B hAB hrest⟩
      | announce id nm =>
          refine ih (id :: A) (id :: B) ?_ h
          intro y hy
          rcases List.mem_cons.mp hy with h1 | h1
          · exact h1 ▸ List.mem_cons_self _ _
          · exact List.mem_cons_of_mem _ (hAB _ h1)
      | check b => exact ih A B hAB h
      | modelCall => exact ih A B hAB h
      | yieldChunk => exact ih A B hAB h
      | textEv s => exact ih A B hAB h
      | appendMsg => exact ih A B hAB h
      | execAction id => exact ih A B hAB h
      | doneEv => exact ih A B hAB h

theorem abrFrom_append : ∀ (x y : List Op) (A : List String),
    abrFrom A x → (∀ B, abrFrom B y) → abrFrom A (x ++ y) := by
  intro x
  induction x with
  | nil => intro y A hx hy; exact hy A
  | cons o rest ih =>
      intro y A hx hy
      cases o with
      | resultEv id =>
          obtain ⟨hm, hrest⟩ := hx
          exact ⟨hm, ih y A hrest hy⟩
      | announce id nm => exact ih y (id :: A) hx hy
      | check b => exact ih y A hx hy
      | modelCall => exact ih y A hx hy
      | yieldChunk => exact ih y A hx hy
      | textEv s => exact ih y A hx hy
      | appendMsg => exact ih y A hx hy
      | execAction id => exact ih y A hx hy
      | doneEv => exact ih y A hx hy

/-- Every result yielded by the openai item-processing loop is preceded by
its announce within the same item block. -/
theorem openaiItems_abr : ∀ (items : List OutItem) (t : Nat) (A : List String),
    abrFrom A (openaiItems t items).1 := by
  intro items
  induction items with
  | nil => intro t A; trivial
  | cons item rest ih =>
      intro t A
      cases item with
      | message txt =>
          by_cases h : txt.trim ≠ ""
          · rcases h' : openaiItems (t + 1) rest with ⟨ops, t', r⟩
            simp only [openaiItems, h']
            rw [if_pos h]
            have := ih (t + 1) A
            rw [h'] at this
            exact this
          · simp only [openaiItems]
            rw [if_neg h]
            exact ih t A
      | computer_call cid nm =>
          rcases h' : openaiItems (t + 4) rest with ⟨ops, t', r⟩
          simp only [openaiItems, h']
          show abrFrom (cid :: A) (Op.resultEv cid :: ops)
          refine ⟨List.mem_cons_self _ _, ?_⟩
          have := ih (t + 4) (cid :: A)
          rw [h'] at this
          exact this
      | reasoning =>
          simp only [openaiItems]
          exact ih t A
      | function_call cid nm =>
          by_cases h : nm = "goto"
          · rcases h' : openaiItems (t + 4) rest with ⟨ops, t', r⟩
            simp only [openaiItems, h, if_true, h']
            show abrFrom (cid :: A) (Op.resultEv cid :: ops)
            refine ⟨List.mem_cons_self _ _, ?_⟩
            have := ih (t + 4) (cid :: A)
            rw [h'] at this
            exact this
          · rcases h' : openaiItems (t + 3) rest with ⟨ops, t', r⟩
            simp only [openaiItems, h, if_false, h']
            show abrFrom (cid :: A) (Op.resultEv cid :: ops)
            refine ⟨List.mem_cons_self _ _, ?_⟩
            have := ih (t + 3) (cid :: A)
            rw [h'] at this
            exact this
      | assistant txt =>
          by_cases h : txt.trim ≠ ""
          · simp only [openaiItems]
            rw [if_pos h]
            trivial
          · simp only [openaiItems]
            rw [if_neg h]
            trivial

/-- Every result yielded by the openai agent loop is preceded by its
announce. -/
theorem openaiLoop_abr (cancel : Nat → Bool) :
    ∀ (script : List (List OutItem)) (t steps : Nat) (A : List String),
    abrFrom A (openaiLoop cancel t steps script) := by
  intro script
  induction script with
  | nil =>
      intro t steps A
      simp only [openaiLoop]
      split
      · trivial
      · split <;> trivial
  | cons items rest ih =>
      intro t steps A
      simp only [openaiLoop]
      split
      · trivial
      · split
        · trivial
        · rcases h' : openaiItems (t + 2) items with ⟨ops, t', stopped⟩
          simp only
          have habr : abrFrom A ops := by
            have := openaiItems_abr items (t + 2) A
            rw [h'] at this
            exact this
          split
          · exact habr
          · exact abrFrom_append ops _ A habr (fun B => ih t' (steps + 1) B)

end Loop

namespace Streamer

theorem wireAnnAfter_sup : ∀ (l : List WireEvent) (A : List String),
    ∀ x ∈ A, x ∈ wireAnnAfter A l := by
  intro l
  induction l with
  | nil => intro A x hx; exact hx
  | cons ev rest ih =>
      intro A x hx
      cases ev with
      | announce id nm ar =>
          exact ih (id :: A) x (List.mem_cons_of_mem _ hx)
      | textDelta s => exact ih A x hx
      | result id p => exact ih A x hx
      | finishToolCalls => exact ih A x hx
      | finishStop => exact ih A x hx
      | streamError m => exact ih A x hx

theorem wireABRFrom_mono : ∀ (l : List WireEvent) (A B : List String),
    (∀ x ∈ A, x ∈ B) → wireABRFrom A l → wireABRFrom B l := by
  intro l
  induction l with
  | nil => intro A B hAB h; trivial
  | cons ev rest ih =>
      intro A B hAB h
      cases ev with
      | result id p =>
          obtain ⟨hm, hrest⟩ := h
          exact ⟨hAB _ hm, ih A B hAB hrest⟩
      | announce id nm ar =>
          refine ih (id :: A) (id :: B) ?_ h
          intro y hy
          rcases List.mem_cons.mp hy with h1 | h1
          · exact h1 ▸ List.mem_cons_self _ _
          · exact List.mem_cons_of_mem _ (hAB _ h1)
      | textDelta s => exact ih A B hAB h
      | finishToolCalls => exact ih A B hAB h
      | finishStop => exact ih A B hAB h
      | streamError m => exact ih A B hAB h

theorem wireABRFrom_append : ∀ (x y : List WireEvent) (A : List String),
    wireABRFrom A x → wireABRFrom (wireAnnAfter A x) y →
    wireABRFrom A (x ++ y) := by
  intro x
  induction x with
  | nil => intro y A hx hy; exact hy
  | cons ev rest ih =>
      intro y A hx hy
      cases ev with
      | result id p =>
          obtain ⟨hm, hrest⟩ := hx
          exact ⟨hm, ih y A hrest hy⟩
      | announce id nm ar => exact ih y (id :: A) hx hy
      | textDelta s => exact ih y A hx hy
      | finishToolCalls => exact ih y A hx hy
      | finishStop => exact ih y A hx hy
      | streamError m => exact ih y A hx hy

theorem wireABRFrom_of_all_announce : ∀ (l : List WireEvent) (A : List String),
    (∀ ev ∈ l, ∃ i n a, ev = .announce i n a) → wireABRFrom A l := by
  intro l
  induction l with
  | nil => intro A h; trivial
  | cons ev rest ih =>
      intro A h
      obtain ⟨i, n, a, heq⟩ := h ev (List.mem_cons_self _ _)
      subst heq
      exact ih (i :: A) fun e he => h e (List.mem_cons_of_mem _ he)

theorem wireAnnAfter_of_all_announce : ∀ (l : List WireEvent) (A : List String),
    (∀ ev ∈ l, ∃ i n a, ev = .announce i n a) →
    ∀ p, (∃ n a, WireEvent.announce p n a ∈ l) → p ∈ wireAnnAfter A l := by
  intro l
  induction l with
  | nil =>
      intro A h p hp
      obtain ⟨n, a, hmem⟩ := hp
      exact absurd hmem (List.not_mem_nil _)
  | cons ev rest ih =>
      intro A h p hp
      obtain ⟨i, n0, a0, heq⟩ := h ev (List.mem_cons_self _ _)
      subst heq
      obtain ⟨n, a, hmem⟩ := hp
      rcases List.mem_cons.mp hmem with h1 | h1
      · have hpi : p = i := by
          cases h1
          rfl
        subst hpi
        exact wireAnnAfter_sup rest (p :: A) p (List.mem_cons_self _ _)
      · exact ih (i :: A) (fun e he => h e (List.mem_cons_of_mem _ he)) p ⟨n, a, h1⟩

theorem contentEvents_wireABR (content : ChunkContent) :
    ∀ (x : List WireEvent) (A : List String),
    wireABRFrom A x → wireABRFrom A (contentEvents content ++ x) := by
  have hall := contentEvents_textDelta content
  revert hall
  generalize contentEvents content = l
  intro hall
  induction l with
  | nil => intro x A hx; exact hx
  | cons ev rest ih =>
      intro x A hx
      obtain ⟨s, hs⟩ := hall ev (List.mem_cons_self _ _)
      subst hs
      exact ih (fun e he => hall e (List.mem_cons_of_mem _ he)) x A hx

theorem contentEvents_wireAnnAfter (content : ChunkContent) :
    ∀ (x : List WireEvent) (A : List String),
    wireAnnAfter A (contentEvents content ++ x) = wireAnnAfter A x := by
  have hall := contentEvents_textDelta content
  revert hall
  generalize contentEvents content = l
  intro hall
  induction l with
  | nil => intro x A; rfl
  | cons ev rest ih =>
      intro x A
      obtain ⟨s, hs⟩ := hall ev (List.mem_cons_self _ _)
      subst hs
      exact ih (fun e he => hall e (List.mem_cons_of_mem _ he)) x A

end Streamer

namespace Streamer

theorem contentEvents_wireABR_self (content : ChunkContent) (A : List String) :
    wireABRFrom A (contentEvents content) := by
  have := contentEvents_wireABR content [] A trivial
  simpa using this

theorem contentEvents_wireAnnAfter_self (content : ChunkContent)
    (A : List String) : wireAnnAfter A (contentEvents content) = A := by
  have := contentEvents_wireAnnAfter content [] A
  simpa using this

/-- The events of a tool-result chunk: the `a:` line, possibly followed by the
mid-stream tool-calls finish. -/
theorem processChunk_result_shape (vj : String → Bool) (st : StState)
    (tcid : Option String) (content : ChunkContent)
    (h3 : strTruthy tcid = true) :
    (processChunk vj st (.msg [] [] tcid content)).2
        = [.result (tcid.getD "") content, .finishToolCalls] ∨
    (processChunk vj st (.msg [] [] tcid content)).2
        = [.result (tcid.getD "") content] := by
  simp only [processChunk, ne_eq, not_true_eq_false, if_false, h3, if_true]
  split
  · split
    · left; rfl
    · right; rfl
  · split
    · left; rfl
    · right; rfl

/-- The events of a non-tool chunk: the content's text deltas or nothing. -/
theorem processChunk_content_shape (vj : String → Bool) (st : StState)
    (tcid : Option String) (content : ChunkContent)
    (h3 : strTruthy tcid = false) :
    (processChunk vj st (.msg [] [] tcid content)).2 = contentEvents content ∨
    (processChunk vj st (.msg [] [] tcid content)).2 = [] := by
  simp only [processChunk, ne_eq, not_true_eq_false, if_false]
  rw [if_neg (by simp [h3])]
  split
  · left; rfl
  · right; rfl

/-- One chunk preserves the announce-before-result discipline: its events obey
it when its result id (if any) is already announced, and its unconditional
announces join the accumulator. -/
theorem processChunk_abr (vj : String → Bool) (st : StState) (c : Chunk)
    (A : List String) (hres : ∀ id, chunkResultId c = some id → id ∈ A) :
    wireABRFrom A (processChunk vj st c).2 ∧
    ∀ x, (x ∈ A ∨ x ∈ chunkAnnIds c) →
      x ∈ wireAnnAfter A (processChunk vj st c).2 := by
  cases c with
  | dict stop =>
      cases stop with
      | false =>
          refine ⟨trivial, fun x hx => ?_⟩
          rcases hx with hx | hx
          · exact hx
          · exact absurd hx (List.not_mem_nil x)
      | true =>
          refine ⟨trivial, fun x hx => ?_⟩
          rcases hx with hx | hx
          · exact hx
          · exact absurd hx (List.not_mem_nil x)
  | msg tccs tcs tcid content =>
      by_cases h1 : tccs = []
      · by_cases h2 : tcs = []
        · by_cases h3 : strTruthy tcid = true
          · -- tool result branch
            have hid : chunkResultId (.msg tccs tcs tcid content)
                = some (tcid.getD "") := by
              simp [chunkResultId, h1, h2, h3]
            have hmem := hres _ hid
            have hann : chunkAnnIds (.msg tccs tcs tcid content) = [] := by
              simp [chunkAnnIds, h2]
            subst h1; subst h2
            rcases processChunk_result_shape vj st tcid content h3 with he | he <;>
              rw [he, hann] <;>
              refine ⟨⟨hmem, trivial⟩, fun x hx => ?_⟩ <;>
              rcases hx with hx | hx
            · exact hx
            · exact absurd hx (List.not_mem_nil x)
            · exact hx
            · exact absurd hx (List.not_mem_nil x)
          · -- plain content (or empty) branch
            have hann : chunkAnnIds (.msg tccs tcs tcid content) = [] := by
              simp [chunkAnnIds, h2]
            subst h1; subst h2
            have h3' : strTruthy tcid = false := by
              simpa using h3
            rcases processChunk_content_shape vj st tcid content h3' with he | he <;>
              rw [he, hann]
            · refine ⟨contentEvents_wireABR_self content A, fun x hx => ?_⟩
              rw [contentEvents_wireAnnAfter_self]
              rcases hx with hx | hx
              · exact hx
              · exact absurd hx (List.not_mem_nil x)
            · refine ⟨trivial, fun x hx => ?_⟩
              rcases hx with hx | hx
              · exact hx
              · exact absurd hx (List.not_mem_nil x)
        · -- full tool_calls branch
          have hann : chunkAnnIds (.msg tccs tcs tcid content)
              = tcs.map (·.id) := by
            simp [chunkAnnIds, h1, h2]
          subst h1
          simp only [processChunk, ne_eq, not_true_eq_false, if_false, h2,
            not_false_eq_true, if_true]
          have hmapann : ∀ ev ∈ tcs.map fun tc =>
              WireEvent.announce tc.id tc.name tc.args,
              ∃ i n a, ev = .announce i n a := by
            intro ev hev
            obtain ⟨tc, _, htc⟩ := List.mem_map.mp hev
            exact ⟨tc.id, tc.name, tc.args, htc.symm⟩
          constructor
          · exact contentEvents_wireABR content _ A
              (wireABRFrom_of_all_announce _ A hmapann)
          · intro x hx
            rw [hann] at hx
            rw [contentEvents_wireAnnAfter]
            rcases hx with hx | hx
            · exact wireAnnAfter_sup _ A x hx
            · obtain ⟨tc, htc, hxid⟩ := List.mem_map.mp hx
              exact wireAnnAfter_of_all_announce _ A hmapann x
                ⟨tc.name, tc.args, List.mem_map.mpr ⟨tc, htc, by rw [hxid]⟩⟩
      · -- tool_call_chunks branch
        have hann : chunkAnnIds (.msg tccs tcs tcid content) = [] := by
          simp [chunkAnnIds, h1]
        simp only [processChunk, ne_eq, h1, not_false_eq_true, if_true]
        have hfr := processToolFrags_events vj st tccs
        constructor
        · exact wireABRFrom_of_all_announce _ A
            (fun ev hev => by
              obtain ⟨i, n, a, heq, _⟩ := hfr ev hev
              exact ⟨i, n, a, heq⟩)
        · intro x hx
          rw [hann] at hx
          rcases hx with hx | hx
          · exact wireAnnAfter_sup _ A x hx
          · exact absurd hx (List.not_mem_nil x)

/-- The re-encoder preserves the announce-before-result discipline: if every
result chunk of the input was preceded by a full-tool-calls chunk announcing
its id, then every `a:` wire event is preceded by a `9:` wire event with the
same id. -/
theorem processChunks_abr (vj : String → Bool) :
    ∀ (cs : List Chunk) (st : StState) (A B : List String),
    chunksABRFrom A cs → (∀ x ∈ A, x ∈ B) →
    wireABRFrom B (processChunks vj st cs).2 := by
  intro cs
  induction cs with
  | nil => intro st A B h hAB; trivial
  | cons c rest ih =>
      intro st A B h hAB
      obtain ⟨hres, hrest⟩ := h
      rcases h' : processChunk vj st c with ⟨st1, evs⟩
      simp only [processChunks, h']
      obtain ⟨habr, hacc⟩ :=
        processChunk_abr vj st c B (fun id hid => hAB _ (hres id hid))
      rw [h'] at habr hacc
      refine wireABRFrom_append evs _ B habr
        (ih st1 (A ++ chunkAnnIds c) (wireAnnAfter B evs) hrest ?_)
      intro x hx
      rcases List.mem_append.mp hx with hx | hx
      · exact hacc x (Or.inl (hAB _ hx))
      · exact hacc x (Or.inr hx)

end Streamer

namespace BrowserUse

theorem collectActions_spec : ∀ (entries : List ActionEntry) (n : Nat),
    (collectActions n entries).2.2.1
      = (collectActions n entries).2.1.map (fun tc => QItem.toolQ tc.id "") ∧
    ∀ q ∈ (collectActions n entries).1, isToolQ q = false := by
  intro entries
  induction entries with
  | nil => intro n; exact ⟨rfl, fun q hq => absurd hq (List.not_mem_nil q)⟩
  | cons e rest ih =>
      intro n
      obtain ⟨key, val⟩ := e
      cases val with
      | none =>
          simp only [collectActions]
          exact ih n
      | some v =>
          by_cases hk : key = "done"
          · rcases h' : collectActions n rest with ⟨dones, tcs, touts, n'⟩
            obtain ⟨ih1, ih2⟩ := ih n
            rw [h'] at ih1 ih2
            simp only [collectActions, hk, if_true, h']
            refine ⟨ih1, fun q hq => ?_⟩
            rcases List.mem_cons.mp hq with h1 | h1
            · subst h1; rfl
            · rcases List.mem_cons.mp h1 with h2 | h2
              · subst h2; rfl
              · exact ih2 q h2
          · rcases h' : collectActions (n + 1) rest with ⟨dones, tcs, touts, n'⟩
            obtain ⟨ih1, ih2⟩ := ih (n + 1)
            rw [h'] at ih1 ih2
            simp only at ih1 ih2
            simp only [collectActions, hk, if_false, h']
            exact ⟨by simp [ih1], ih2⟩

/-- In `yield_data`'s queue output, the single AIMessage carrying the step's
tool calls precedes every ToolMessage result, and everything before it
(commentary, done-texts, stops) contains no ToolMessage. -/
theorem yield_data_announce_before_results (step : Nat)
    (pg mem ng : String) (actions : List ActionEntry) (n : Nat) :
    ∃ pre tcs, (yield_data step pg mem ng actions n).1
        = pre ++ QItem.ai "" tcs :: tcs.map (fun tc => QItem.toolQ tc.id "")
      ∧ ∀ q ∈ pre, isToolQ q = false := by
  rcases h' : collectActions n actions with ⟨dones, tcs, touts, n'⟩
  obtain ⟨hmap, hdones⟩ := collectActions_spec actions n
  rw [h'] at hmap hdones
  simp only at hmap hdones
  refine ⟨((if step > 2 then
      [QItem.ai ("*Previous Goal*:\n" ++ pg) [], QItem.stopQ]
    else [])
      ++ [QItem.ai ("*Memory*:\n" ++ mem) [], QItem.stopQ,
          QItem.ai ("*Next Goal*:\n" ++ ng) [], QItem.stopQ]) ++ dones,
    tcs, ?_, ?_⟩
  · simp only [yield_data, h', hmap]
    simp [List.append_assoc]
  · intro q hq
    rcases List.mem_append.mp hq with hq | hq
    · rcases List.mem_append.mp hq with hq | hq
      · split at hq
        · simp only [List.mem_cons, List.not_mem_nil, or_false] at hq
          rcases hq with hq | hq <;> subst hq <;> rfl
        · exact absurd hq (List.not_mem_nil q)
      · simp only [List.mem_cons, List.not_mem_nil, or_false] at hq
        rcases hq with hq | hq | hq | hq <;> subst hq <;> rfl
    · exact hdones q hq

end BrowserUse

section OrderingClaims

/-- C2: announce-before-result ordering per tool-call id. (1) The openai
computer-use loop yields its result op only after its announce op for the
same id; (2) `yield_data` queues the tool-calls AIMessage before every
ToolMessage, with nothing tool-message-shaped before it; (3) the re-encoder
maps any chunk sequence in which every result chunk's id was announced by an
earlier full-tool-calls chunk to a wire stream in which every `a:` event is
preceded by the `9:` event with the same id. -/
theorem C2_announce_precedes_result :
    (∀ (cancel : Nat → Bool) (script : List (List Loop.OutItem))
        (t steps : Nat) (A : List String),
      Loop.abrFrom A (Loop.openaiLoop cancel t steps script)) ∧
    (∀ (step : Nat) (pg mem ng : String)
        (actions : List BrowserUse.ActionEntry) (n : Nat),
      ∃ pre tcs, (BrowserUse.yield_data step pg mem ng actions n).1
          = pre ++ BrowserUse.QItem.ai "" tcs
              :: tcs.map (fun tc => BrowserUse.QItem.toolQ tc.id "")
        ∧ ∀ q ∈ pre, BrowserUse.isToolQ q = false) ∧
    (∀ (vj : String → Bool) (cs : List Streamer.Chunk) (st : Streamer.StState)
        (A B : List String), Streamer.chunksABRFrom A cs →
      (∀ x ∈ A, x ∈ B) →
      Streamer.wireABRFrom B (Streamer.processChunks vj st cs).2) :=
  ⟨fun cancel script t steps A => Loop.openaiLoop_abr cancel script t steps A,
    fun step pg mem ng actions n =>
      BrowserUse.yield_data_announce_before_results step pg mem ng actions n,
    fun vj cs st A B h hAB => Streamer.processChunks_abr vj cs st A B h hAB⟩

/-- Witness for C2: a concrete chunk sequence (one full-tool-calls announce
for `"t1"`, then its result) whose wire stream obeys the ordering. -/
theorem C2_witness :
    Streamer.wireABRFrom []
      (Streamer.processChunks (fun _ => true) ⟨[], []⟩
        [Streamer.Chunk.msg [] [⟨"t1", "go", "null"⟩] none (.str ""),
         Streamer.Chunk.msg [] [] (some "t1") (.str "ok")]).2 := by
  refine C2_announce_precedes_result.2.2 (fun _ => true) _ ⟨[], []⟩ [] []
    ⟨?_, ?_, trivial⟩ (fun x hx => hx)
  · intro id h
    simp [Streamer.chunkResultId] at h
  · intro id h
    simp only [Streamer.chunkResultId, Streamer.strTruthy] at h
    simp only [Streamer.chunkAnnIds]
    simp at h ⊢
    simp [h]

end OrderingClaims

namespace Loop

theorem nwac_of_no_work : ∀ l, (∀ o ∈ l, isWork o = false) →
    noWorkAfterCancel l := by
  intro l
  induction l with
  | nil => intro h; trivial
  | cons x rest ih =>
      intro h
      exact ⟨fun _ o ho => h o (List.mem_cons_of_mem _ ho),
        ih fun o ho => h o (List.mem_cons_of_mem _ ho)⟩

theorem nwac_of_no_cancel : ∀ l, Op.check true ∉ l → noWorkAfterCancel l := by
  intro l
  induction l with
  | nil => intro h; trivial
  | cons x rest ih =>
      intro h
      refine ⟨fun hx => ?_, ih fun hm => h (List.mem_cons_of_mem _ hm)⟩
      subst hx
      exact absurd (List.mem_cons_self _ _) h

theorem nwac_append : ∀ a b, noWorkAfterCancel a → noWorkAfterCancel b →
    (Op.check true ∈ a → ∀ o ∈ b, isWork o = false) →
    noWorkAfterCancel (a ++ b) := by
  intro a
  induction a with
  | nil => intro b _ hb _; exact hb
  | cons x a' ih =>
      intro b ha hb hab
      obtain ⟨hx, ha'⟩ := ha
      refine ⟨fun hxe => ?_, ih b ha' hb fun hm => hab (List.mem_cons_of_mem _ hm)⟩
      intro o ho
      rcases List.mem_append.mp ho with ho | ho
      · exact hx hxe o ho
      · subst hxe
        exact hab (List.mem_cons_self _ _) o ho

theorem csw_of_no_work : ∀ l, (∀ o ∈ l, isWork o = false) → ∀ s, csw s l := by
  intro l
  induction l with
  | nil => intro h s; trivial
  | cons x rest ih =>
      intro h s
      have htail : ∀ o ∈ rest, isWork o = false :=
        fun o ho => h o (List.mem_cons_of_mem _ ho)
      cases x with
      | check b => exact ih htail false
      | modelCall =>
          exact absurd (h _ (List.mem_cons_self _ _)) (by simp [isWork])
      | execAction id =>
          exact absurd (h _ (List.mem_cons_self _ _)) (by simp [isWork])
      | yieldChunk => exact ⟨fun hw => absurd hw (by simp [isWork]), ih htail _⟩
      | textEv s0 => exact ⟨fun hw => absurd hw (by simp [isWork]), ih htail _⟩
      | appendMsg => exact ⟨fun hw => absurd hw (by simp [isWork]), ih htail _⟩
      | announce id nm => exact ⟨fun hw => absurd hw (by simp [isWork]), ih htail _⟩
      | resultEv id => exact ⟨fun hw => absurd hw (by simp [isWork]), ih htail _⟩
      | doneEv => exact ⟨fun hw => absurd hw (by simp [isWork]), ih htail _⟩

theorem csw_append : ∀ a b s, csw s a → csw (cswAfter s a) b → csw s (a ++ b) := by
  intro a
  induction a with
  | nil => intro b s _ hb; exact hb
  | cons x a' ih =>
      intro b s ha hb
      cases x with
      | check b0 => exact ih b false ha hb
      | modelCall => exact ⟨ha.1, ih b _ ha.2 hb⟩
      | execAction id => exact ⟨ha.1, ih b _ ha.2 hb⟩
      | yieldChunk => exact ⟨ha.1, ih b _ ha.2 hb⟩
      | textEv s0 => exact ⟨ha.1, ih b _ ha.2 hb⟩
      | appendMsg => exact ⟨ha.1, ih b _ ha.2 hb⟩
      | announce id nm => exact ⟨ha.1, ih b _ ha.2 hb⟩
      | resultEv id => exact ⟨ha.1, ih b _ ha.2 hb⟩
      | doneEv => exact ⟨ha.1, ih b _ ha.2 hb⟩

theorem baseChunkLoop_facts (cancel : Nat → Bool) :
    ∀ (chunks : List BChunk) (t : Nat) (g : Option BChunk),
    (∀ o ∈ (baseChunkLoop cancel t chunks g).1, isWork o = false) ∧
    ((baseChunkLoop cancel t chunks g).2.2.2 = true ↔
      Op.check true ∈ (baseChunkLoop cancel t chunks g).1) ∧
    t ≤ (baseChunkLoop cancel t chunks g).2.2.1 ∧
    (CancelMono cancel → (baseChunkLoop cancel t chunks g).2.2.2 = true →
      cancel (baseChunkLoop cancel t chunks g).2.2.1 = true) := by
  intro chunks
  induction chunks with
  | nil =>
      intro t g
      refine ⟨fun o ho => absurd ho (List.not_mem_nil o), by simp [baseChunkLoop],
        le_refl t, fun _ h => by simp [baseChunkLoop] at h⟩
  | cons c rest ih =>
      intro t g
      by_cases hc : cancel t = true
      · simp only [baseChunkLoop, hc, if_true]
        refine ⟨?_, by simp, by omega, fun hm _ => hm t (t + 1) (by omega) hc⟩
        intro o ho
        simp only [List.mem_singleton] at ho
        subst ho
        rfl
      · rcases h' : baseChunkLoop cancel (t + 2) rest (some (mergeChunk g c))
          with ⟨ops, g', t', br⟩
        obtain ⟨ih1, ih2, ih3, ih4⟩ := ih (t + 2) (some (mergeChunk g c))
        rw [h'] at ih1 ih2 ih3 ih4
        simp only at ih1 ih2 ih3 ih4
        have hcf : cancel t = false := by simpa using hc
        simp only [baseChunkLoop, hcf, Bool.false_eq_true, if_false, h']
        refine ⟨?_, ?_, by omega, ih4⟩
        · intro o ho
          rcases List.mem_cons.mp ho with ho | ho
          · subst ho; rfl
          · rcases List.mem_cons.mp ho with ho | ho
            · subst ho; rfl
            · exact ih1 o ho
        · constructor
          · intro hbr
            exact List.mem_cons_of_mem _ (List.mem_cons_of_mem _ (ih2.mp hbr))
          · intro hm
            rcases List.mem_cons.mp hm with hm | hm
            · exact absurd hm.symm (by simp)
            · rcases List.mem_cons.mp hm with hm | hm
              · exact absurd hm.symm (by simp)
              · exact ih2.mpr hm

theorem baseToolLoop_facts (cancel : Nat → Bool) :
    ∀ (tcs : List TCall) (t : Nat),
    noWorkAfterCancel (baseToolLoop cancel t tcs).1 ∧
    (∀ s, csw s (baseToolLoop cancel t tcs).1) ∧
    t ≤ (baseToolLoop cancel t tcs).2 ∧
    (CancelMono cancel → Op.check true ∈ (baseToolLoop cancel t tcs).1 →
      cancel (baseToolLoop cancel t tcs).2 = true) := by
  intro tcs
  induction tcs with
  | nil =>
      intro t
      exact ⟨trivial, fun s => trivial, le_refl t,
        fun _ h => absurd h (List.not_mem_nil _)⟩
  | cons tc rest ih =>
      intro t
      by_cases hc : cancel t = true
      · simp only [baseToolLoop, hc, if_true]
        refine ⟨⟨fun _ o ho => absurd ho (List.not_mem_nil o), trivial⟩,
          fun s => trivial, by omega, fun hm _ => hm t (t + 1) (by omega) hc⟩
      · rcases h' : baseToolLoop cancel (t + 4) rest with ⟨ops, t'⟩
        obtain ⟨ih1, ih2, ih3, ih4⟩ := ih (t + 4)
        rw [h'] at ih1 ih2 ih3 ih4
        simp only at ih1 ih2 ih3 ih4
        have hcf : cancel t = false := by simpa using hc
        simp only [baseToolLoop, hcf, Bool.false_eq_true, if_false, h']
        refine ⟨?_, ?_, by omega, ?_⟩
        · refine ⟨fun hx => absurd hx (by simp), fun hx => absurd hx (by simp),
            fun hx => absurd hx (by simp), fun hx => absurd hx (by simp), ih1⟩
        · intro s
          exact ⟨fun _ => rfl, fun hw => by simp [isWork] at hw,
            fun hw => by simp [isWork] at hw, ih2 _⟩
        · intro hm hmem
          rcases List.mem_cons.mp hmem with h1 | h1
          · exact absurd h1.symm (by simp)
          · rcases List.mem_cons.mp h1 with h2 | h2
            · exact absurd h2.symm (by simp)
            · rcases List.mem_cons.mp h2 with h3 | h3
              · exact absurd h3.symm (by simp)
              · rcases List.mem_cons.mp h3 with h4 | h4
                · exact absurd h4.symm (by simp)
                · exact ih4 hm h4

end Loop

namespace Loop

theorem baseLoop_cancelled (cancel : Nat → Bool) (t : Nat)
    (script : List (List BChunk)) (h : cancel t = true) :
    baseLoop cancel t script = [.check true] := by
  cases script <;> simp [baseLoop, h]

/-- Once any check of `base_agent` observes the cancellation signal, no new
model call and no new action execution starts. -/
theorem baseLoop_nwac (cancel : Nat → Bool) (hm : CancelMono cancel) :
    ∀ (script : List (List BChunk)) (t : Nat),
    noWorkAfterCancel (baseLoop cancel t script) := by
  intro script
  induction script with
  | nil =>
      intro t
      by_cases hc : cancel t = true
      · simp only [baseLoop, hc, if_true]
        exact ⟨fun _ o ho => absurd ho (List.not_mem_nil o), trivial⟩
      · have hcf : cancel t = false := by simpa using hc
        simp only [baseLoop, hcf, Bool.false_eq_true, if_false]
        exact ⟨fun hx => absurd hx (by simp), fun hx => absurd hx (by simp),
          trivial⟩
  | cons chunks rest ih =>
      intro t
      by_cases hc : cancel t = true
      · simp only [baseLoop, hc, if_true]
        exact ⟨fun _ o ho => absurd ho (List.not_mem_nil o), trivial⟩
      · have hcf : cancel t = false := by simpa using hc
        rcases h1 : baseChunkLoop cancel (t + 2) chunks none
          with ⟨ops1, g, t1, br⟩
        obtain ⟨hops1, hbr_iff, ht1, hbrc⟩ :=
          baseChunkLoop_facts cancel chunks (t + 2) none
        rw [h1] at hops1 hbr_iff ht1 hbrc
        simp only at hops1 hbr_iff ht1 hbrc
        simp only [baseLoop, hcf, Bool.false_eq_true, if_false, h1]
        cases g with
        | none =>
            exact ⟨fun hx => absurd hx (by simp),
              fun hx => absurd hx (by simp), nwac_of_no_work _ hops1⟩
        | some gg =>
            by_cases hc2 : cancel (t1 + 1) = true
            · simp only [hc2, if_true]
              refine ⟨fun hx => absurd hx (by simp),
                fun hx => absurd hx (by simp), ?_⟩
              refine nwac_append ops1 [.appendMsg, .check true]
                (nwac_of_no_work _ hops1)
                ⟨fun hx => absurd hx (by simp),
                  fun _ o ho => absurd ho (List.not_mem_nil o), trivial⟩ ?_
              intro _ o ho
              rcases List.mem_cons.mp ho with ho | ho
              · subst ho; rfl
              · rcases List.mem_cons.mp ho with ho | ho
                · subst ho; rfl
                · exact absurd ho (List.not_mem_nil o)
            · have hcf2 : cancel (t1 + 1) = false := by simpa using hc2
              simp only [hcf2, Bool.false_eq_true, if_false]
              have hbrf : br = false := by
                by_contra hbrt
                have hbr' : br = true := by simpa using hbrt
                have hcT := hbrc hm hbr'
                have := hm t1 (t1 + 1) (by omega) hcT
                rw [this] at hcf2
                exact Bool.noConfusion hcf2
              have hct1 : Op.check true ∉ ops1 := by
                intro hmem
                have := hbr_iff.mpr hmem
                rw [hbrf] at this
                exact Bool.noConfusion this
              by_cases htc : gg.tool_calls ≠ []
              · rw [if_pos htc]
                rcases h2 : baseToolLoop cancel (t1 + 2) gg.tool_calls
                  with ⟨ops2, t2⟩
                obtain ⟨hnw2, hcsw2, ht2, hc2m⟩ :=
                  baseToolLoop_facts cancel gg.tool_calls (t1 + 2)
                rw [h2] at hnw2 hcsw2 ht2 hc2m
                simp only at hnw2 hcsw2 ht2 hc2m
                have eqtr :
                    (Op.check false :: Op.modelCall :: ops1)
                        ++ [Op.appendMsg, Op.check false] ++ ops2
                        ++ baseLoop cancel t2 rest
                      = Op.check false :: Op.modelCall ::
                          (ops1 ++ ([Op.appendMsg, Op.check false]
                            ++ (ops2 ++ baseLoop cancel t2 rest))) := by
                  simp [List.append_assoc]
                rw [eqtr]
                refine ⟨fun hx => absurd hx (by simp),
                  fun hx => absurd hx (by simp), ?_⟩
                have hrecwork : Op.check true ∈ ops2 →
                    ∀ o ∈ baseLoop cancel t2 rest, isWork o = false := by
                  intro hmem o ho
                  rw [baseLoop_cancelled cancel t2 rest (hc2m hm hmem)] at ho
                  rcases List.mem_cons.mp ho with ho | ho
                  · subst ho; rfl
                  · exact absurd ho (List.not_mem_nil o)
                have hbnw : noWorkAfterCancel
                    ([Op.appendMsg, Op.check false]
                      ++ (ops2 ++ baseLoop cancel t2 rest)) := by
                  refine ⟨fun hx => absurd hx (by simp),
                    fun hx => absurd hx (by simp), ?_⟩
                  exact nwac_append ops2 _ hnw2 (ih t2) hrecwork
                refine nwac_append ops1 _ (nwac_of_no_work _ hops1) hbnw ?_
                intro hmem
                exact absurd hmem hct1
              · rw [if_neg htc]
                refine ⟨fun hx => absurd hx (by simp),
                  fun hx => absurd hx (by simp), ?_⟩
                refine nwac_append ops1 [Op.appendMsg, Op.check false]
                  (nwac_of_no_work _ hops1)
                  ⟨fun hx => absurd hx (by simp),
                    fun hx => absurd hx (by simp), trivial⟩ ?_
                intro hmem
                exact absurd hmem hct1

/-- In `base_agent`, every new model call and every new action execution is
separated from the previous one by a cancellation check. -/
theorem baseLoop_csw (cancel : Nat → Bool) :
    ∀ (script : List (List BChunk)) (t : Nat) (s : Bool),
    csw s (baseLoop cancel t script) := by
  intro script
  induction script with
  | nil =>
      intro t s
      by_cases hc : cancel t = true
      · simp only [baseLoop, hc, if_true]
        trivial
      · have hcf : cancel t = false := by simpa using hc
        simp only [baseLoop, hcf, Bool.false_eq_true, if_false]
        exact ⟨fun _ => rfl, trivial⟩
  | cons chunks rest ih =>
      intro t s
      by_cases hc : cancel t = true
      · simp only [baseLoop, hc, if_true]
        trivial
      · have hcf : cancel t = false := by simpa using hc
        rcases h1 : baseChunkLoop cancel (t + 2) chunks none
          with ⟨ops1, g, t1, br⟩
        obtain ⟨hops1, -, -, -⟩ := baseChunkLoop_facts cancel chunks (t + 2) none
        rw [h1] at hops1
        simp only at hops1
        simp only [baseLoop, hcf, Bool.false_eq_true, if_false, h1]
        cases g with
        | none =>
            exact ⟨fun _ => rfl, csw_of_no_work _ hops1 _⟩
        | some gg =>
            by_cases hc2 : cancel (t1 + 1) = true
            · simp only [hc2, if_true]
              refine ⟨fun _ => rfl, ?_⟩
              refine csw_append ops1 [Op.appendMsg, Op.check true] _
                (csw_of_no_work _ hops1 _) ?_
              exact ⟨fun hw => by simp [isWork] at hw, trivial⟩
            · have hcf2 : cancel (t1 + 1) = false := by simpa using hc2
              simp only [hcf2, Bool.false_eq_true, if_false]
              by_cases htc : gg.tool_calls ≠ []
              · rw [if_pos htc]
                rcases h2 : baseToolLoop cancel (t1 + 2) gg.tool_calls
                  with ⟨ops2, t2⟩
                obtain ⟨-, hcsw2, -, -⟩ :=
                  baseToolLoop_facts cancel gg.tool_calls (t1 + 2)
                rw [h2] at hcsw2
                simp only at hcsw2
                have eqtr :
                    (Op.check false :: Op.modelCall :: ops1)
                        ++ [Op.appendMsg, Op.check false] ++ ops2
                        ++ baseLoop cancel t2 rest
                      = Op.check false :: Op.modelCall ::
                          (ops1 ++ ([Op.appendMsg, Op.check false]
                            ++ (ops2 ++ baseLoop cancel t2 rest))) := by
                  simp [List.append_assoc]
                rw [eqtr]
                refine ⟨fun _ => rfl, ?_⟩
                refine csw_append ops1 _ _ (csw_of_no_work _ hops1 _) ?_
                refine ⟨fun hw => by simp [isWork] at hw, ?_⟩
                exact csw_append ops2 _ _ (hcsw2 _) (ih t2 _)
              · rw [if_neg htc]
                refine ⟨fun _ => rfl, ?_⟩
                refine csw_append ops1 [Op.appendMsg, Op.check false] _
                  (csw_of_no_work _ hops1 _) ?_
                exact ⟨fun hw => by simp [isWork] at hw, trivial⟩

theorem openaiItems_no_check : ∀ (items : List OutItem) (t : Nat),
    ∀ o ∈ (openaiItems t items).1, ∀ b, o ≠ .check b := by
  intro items
  induction items with
  | nil => intro t o ho; exact absurd ho (List.not_mem_nil o)
  | cons item rest ih =>
      intro t o ho b
      cases item with
      | message txt =>
          by_cases h : txt.trim ≠ ""
          · rcases h' : openaiItems (t + 1) rest with ⟨ops, t', r⟩
            simp only [openaiItems, h'] at ho
            rw [if_pos h] at ho
            rcases List.mem_cons.mp ho with ho | ho
            · subst ho; simp
            · have := ih (t + 1) o
              rw [h'] at this
              exact this ho b
          · simp only [openaiItems] at ho
            rw [if_neg h] at ho
            exact ih t o ho b
      | computer_call cid nm =>
          rcases h' : openaiItems (t + 4) rest with ⟨ops, t', r⟩
          simp only [openaiItems, h'] at ho
          rcases List.mem_cons.mp ho with ho | ho
          · subst ho; simp
          · rcases List.mem_cons.mp ho with ho | ho
            · subst ho; simp
            · rcases List.mem_cons.mp ho with ho | ho
              · subst ho; simp
              · rcases List.mem_cons.mp ho with ho | ho
                · subst ho; simp
                · have := ih (t + 4) o
                  rw [h'] at this
                  exact this ho b
      | reasoning =>
          simp only [openaiItems] at ho
          exact ih t o ho b
      | function_call cid nm =>
          by_cases h : nm = "goto"
          · rcases h' : openaiItems (t + 4) rest with ⟨ops, t', r⟩
            simp only [openaiItems, h, if_true, h'] at ho
            rcases List.mem_cons.mp ho with ho | ho
            · subst ho; simp
            · rcases List.mem_cons.mp ho with ho | ho
              · subst ho; simp
              · rcases List.mem_cons.mp ho with ho | ho
                · subst ho; simp
                · rcases List.mem_cons.mp ho with ho | ho
                  · subst ho; simp
                  · have := ih (t + 4) o
                    rw [h'] at this
                    exact this ho b
          · rcases h' : openaiItems (t + 3) rest with ⟨ops, t', r⟩
            simp only [openaiItems, h, if_false, h'] at ho
            rcases List.mem_cons.mp ho with ho | ho
            · subst ho; simp
            · rcases List.mem_cons.mp ho with ho | ho
              · subst ho; simp
              · rcases List.mem_cons.mp ho with ho | ho
                · subst ho; simp
                · have := ih (t + 3) o
                  rw [h'] at this
                  exact this ho b
      | assistant txt =>
          simp only [openaiItems] at ho
          by_cases h : txt.trim ≠ ""
          · rw [if_pos h] at ho
            rcases List.mem_cons.mp ho with ho | ho
            · subst ho; simp
            · rcases List.mem_cons.mp ho with ho | ho
              · subst ho; simp
              · exact absurd ho (List.not_mem_nil o)
          · rw [if_neg h] at ho
            rcases List.mem_cons.mp ho with ho | ho
            · subst ho; simp
            · exact absurd ho (List.not_mem_nil o)

/-- Once the openai loop's top-of-step check observes the cancellation
signal, no new model call and no new action execution starts (the loop has
no other checkpoint, so this is its only guarantee). -/
theorem openaiLoop_nwac (cancel : Nat → Bool) :
    ∀ (script : List (List OutItem)) (t steps : Nat),
    noWorkAfterCancel (openaiLoop cancel t steps script) := by
  intro script
  induction script with
  | nil =>
      intro t steps
      simp only [openaiLoop]
      split
      · exact ⟨fun _ o ho => by
          simp only [List.mem_singleton] at ho
          subst ho
          rfl, fun hx => absurd hx (by simp), trivial⟩
      · split
        · exact ⟨fun hx => absurd hx (by simp),
            fun hx => absurd hx (by simp), trivial⟩
        · exact ⟨fun hx => absurd hx (by simp),
            fun hx => absurd hx (by simp),
            fun hx => absurd hx (by simp), trivial⟩
  | cons items rest ih =>
      intro t steps
      simp only [openaiLoop]
      split
      · exact ⟨fun _ o ho => by
          simp only [List.mem_singleton] at ho
          subst ho
          rfl, fun hx => absurd hx (by simp), trivial⟩
      · split
        · exact ⟨fun hx => absurd hx (by simp),
            fun hx => absurd hx (by simp), trivial⟩
        · rcases h' : openaiItems (t + 2) items with ⟨ops, t', stopped⟩
          simp only
          have hnochk : ∀ o ∈ ops, ∀ b, o ≠ Op.check b := by
            intro o ho
            have := openaiItems_no_check items (t + 2) o
            rw [h'] at this
            exact this ho
          have hopsnwac : noWorkAfterCancel ops :=
            nwac_of_no_cancel ops fun hmem => (hnochk _ hmem true) rfl
          split
          · exact ⟨fun hx => absurd hx (by simp),
              fun hx => absurd hx (by simp), hopsnwac⟩
          · refine ⟨fun hx => absurd hx (by simp),
              fun hx => absurd hx (by simp), ?_⟩
            refine nwac_append ops _ hopsnwac (ih t' (steps + 1)) ?_
            intro hmem
            exact absurd rfl (hnochk _ hmem true)

end Loop

section CancellationClaims

open Loop

/-- C6 counterexample: in the openai computer-use loop the cancellation
signal becomes set at tick 5, before the second action of the current model
response starts at tick 7, yet that action still executes — no check occurs
after the loop top, so cancellation set mid-step does not stop the remaining
actions; and in the base agent loop the partially gathered model output is
appended (tick 5) after the check at tick 4 already observed the signal,
rather than being discarded. -/
theorem C6_counterexample_checkpoints :
    (openaiLoop (fun t => decide (5 ≤ t)) 0 1
        [[OutItem.computer_call "c1" "click",
          OutItem.computer_call "c2" "click"]]
      = [.check false, .modelCall,
         .announce "c1" "click", .execAction "c1", .appendMsg, .resultEv "c1",
         .announce "c2" "click", .execAction "c2", .appendMsg, .resultEv "c2",
         .check true,
         .textEv "[OPENAI-CUA] Cancel event detected, stopping..."]) ∧
    decide (5 ≤ 5) = true ∧
    (baseLoop (fun t => decide (4 ≤ t)) 0 [[⟨"x", []⟩, ⟨"y", []⟩]]
      = [.check false, .modelCall, .check false, .yieldChunk, .check true,
         .appendMsg, .check true]) := by
  refine ⟨?_, rfl, ?_⟩ <;> rfl

/-- C6 amended: in the base agent loop the signal is checked at the top of
each step, between streamed chunks, after the model call, and before each
action execution — once any check observes the signal, no new model call and
no new action execution starts, and consecutive work steps are always
separated by a check; the openai computer-use loop checks the signal only at
the top of each step, so only a top-of-step observation stops new work. -/
theorem C6_cancellation_checkpoints :
    (∀ cancel : Nat → Bool, CancelMono cancel →
      ∀ (script : List (List BChunk)) (t : Nat),
        noWorkAfterCancel (baseLoop cancel t script)) ∧
    (∀ (cancel : Nat → Bool) (script : List (List BChunk)) (t : Nat) (s : Bool),
        csw s (baseLoop cancel t script)) ∧
    (∀ (cancel : Nat → Bool) (script : List (List OutItem)) (t steps : Nat),
        noWorkAfterCancel (openaiLoop cancel t steps script)) :=
  ⟨fun cancel hm script t => baseLoop_nwac cancel hm script t,
    fun cancel script t s => baseLoop_csw cancel script t s,
    fun cancel script t steps => openaiLoop_nwac cancel script t steps⟩

/-- Witness for C6's amended statement with an always-set (hence monotone)
cancellation signal. -/
theorem C6_witness :
    noWorkAfterCancel (baseLoop (fun _ => true) 0 [[⟨"x", []⟩, ⟨"y", []⟩]]) :=
  C6_cancellation_checkpoints.1 (fun _ => true) (fun _ _ _ h => h) _ 0

end CancellationClaims

namespace BrowserUse

theorem buStep_nonspecial_emitted (st : BUState) (r p : Bool) (d : QItem)
    (hd : d ≠ .endQ) (hs : isSpecial d = false) :
    (buStep st ⟨false, false, r, p, some d⟩).1
      = (if r = true ∧ st.pending ≠ [] then st.pending else []) ++ [d] := by
  simp only [buStep, Bool.false_eq_true, if_false]
  rw [if_neg (by simp [hd] : ¬(d = QItem.endQ))]
  simp only [hs, Bool.false_eq_true, if_false]
  split <;> rfl

theorem buStep_special_buffered (st : BUState) (d : QItem)
    (hd : d ≠ .endQ) (hs : isSpecial d = true) :
    buStep st ⟨false, false, false, true, some d⟩
      = ([], ⟨st.pending ++ [d], true⟩, true) := by
  simp only [buStep, Bool.false_eq_true, if_false]
  rw [if_neg (by simp [hd] : ¬(d = QItem.endQ))]
  simp [hs]

theorem buStep_timeout_flush (st : BUState) (p : Bool)
    (hhp : st.hasPending = true) :
    buStep st ⟨false, false, true, p, none⟩ = (st.pending, ⟨[], false⟩, true) := by
  simp [buStep, hhp]

/-- Released and immediately-delivered commentary events appear in the
output in arrival order; under the reachable pause/resume flag protocol the
backlog is always flushed before any newer commentary event is delivered. -/
theorem buRun_commentary_order :
    ∀ (inputs : List LoopInput) (st : BUState),
    FlagsProtocol inputs →
    (∀ q ∈ st.pending, isSpecial q = true) →
    (st.pending ≠ [] → ∀ inp ∈ inputs, inp.resumedI = false → inp.pausedI = true) →
    ((buRun st inputs).filter isSpecial).Sublist
      (st.pending ++ ((inputs.filterMap LoopInput.data).filter isSpecial)) := by
  intro inputs
  induction inputs with
  | nil =>
      intro st _ _ _
      simp [buRun]
  | cons inp rest ih =>
      intro st hproto hpend hreach
      obtain ⟨hrel, hproto'⟩ := List.pairwise_cons.mp hproto
      obtain ⟨c, f, r, p, dat⟩ := inp
      by_cases hc : c = true
      · subst hc
        simp only [buRun, buStep]
        exact List.nil_sublist _
      · have hc' : c = false := by simpa using hc
        subst hc'
        by_cases hf : f = true
        · subst hf
          simp only [buRun, buStep, Bool.false_eq_true, if_false, if_true]
          exact List.nil_sublist _
        · have hf' : f = false := by simpa using hf
          subst hf'
          cases dat with
          | none =>
              by_cases hfl : r = true ∧ st.hasPending = true
              · obtain ⟨hr, hhp⟩ := hfl
                subst hr
                rw [show buRun st (⟨false, false, true, p, none⟩ :: rest)
                    = st.pending ++ buRun ⟨[], false⟩ rest by
                  simp [buRun, buStep_timeout_flush st p hhp]]
                rw [List.filter_append,
                  List.filter_eq_self.mpr hpend]
                simp only [List.filterMap_cons]
                refine List.Sublist.append_left ?_ _
                exact ih ⟨[], false⟩ hproto' (by simp) (by simp)
              · have hstep : buStep st ⟨false, false, r, p, none⟩
                    = ([], st, true) := by
                  simp only [buStep, Bool.false_eq_true, if_false]
                  rw [if_neg]
                  intro ⟨h1, h2⟩
                  exact hfl ⟨h1, h2⟩
                rw [show buRun st (⟨false, false, r, p, none⟩ :: rest)
                    = buRun st rest by simp [buRun, hstep]]
                simp only [List.filterMap_cons]
                exact ih st hproto' hpend
                  (fun hne inp' hmem => hreach hne inp' (List.mem_cons_of_mem _ hmem))
          | some d =>
              by_cases hend : d = .endQ
              · subst hend
                rw [show buRun st (⟨false, false, r, p, some .endQ⟩ :: rest)
                    = [] by simp [buRun, buStep]]
                exact List.nil_sublist _
              · by_cases hfl : r = true ∧ st.pending ≠ []
                · -- flush path: the backlog is released before the new item
                  obtain ⟨hr, hpne⟩ := hfl
                  subst hr
                  have hstep : buStep st ⟨false, false, true, p, some d⟩
                      = (st.pending ++ [d], ⟨[], false⟩, true) := by
                    simp [buStep, hend, hpne]
                  rw [show buRun st (⟨false, false, true, p, some d⟩ :: rest)
                      = (st.pending ++ [d]) ++ buRun ⟨[], false⟩ rest by
                    simp [buRun, hstep]]
                  rw [List.filter_append, List.filter_append,
                    List.filter_eq_self.mpr hpend]
                  by_cases hs : isSpecial d = true
                  · simp only [List.filterMap_cons, List.filter_cons, hs,
                      if_true, List.filter_singleton]
                    rw [List.append_assoc]
                    refine List.Sublist.append_left ?_ _
                    exact List.Sublist.cons₂ _
                      (ih ⟨[], false⟩ hproto' (by simp) (by simp))
                  · have hs' : isSpecial d = false := by simpa using hs
                    simp only [List.filterMap_cons, List.filter_cons, hs',
                      List.filter_singleton, Bool.false_eq_true, if_false]
                    rw [List.append_assoc]
                    refine List.Sublist.append_left ?_ _
                    exact ih ⟨[], false⟩ hproto' (by simp) (by simp)
                · -- no flush
                  have hout1 : ¬(r = true ∧ st.pending ≠ []) := hfl
                  by_cases hs : isSpecial d = true
                  · by_cases hemit : r = true ∨ p = false
                    · -- emitted immediately; backlog must be empty
                      have hpe : st.pending = [] := by
                        rcases hemit with hr | hp
                        · by_contra hne
                          exact hout1 ⟨hr, hne⟩
                        · by_contra hne
                          have hr' : r = false := by
                            by_contra hrr
                            exact hout1 ⟨by simpa using hrr, hne⟩
                          have := hreach hne _ (List.mem_cons_self _ _) hr'
                          simp only at this
                          rw [hp] at this
                          exact Bool.noConfusion this
                      have hstep : buStep st ⟨false, false, r, p, some d⟩
                          = ([d], st, true) := by
                        simp only [buStep, Bool.false_eq_true, if_false]
                        rw [if_neg (by simp [hend] : ¬(d = QItem.endQ))]
                        rw [if_neg hout1]
                        simp only [hs, if_true]
                        rw [if_pos (by simpa using hemit)]
                        simp
                      rw [show buRun st (⟨false, false, r, p, some d⟩ :: rest)
                          = d :: buRun st rest by simp [buRun, hstep]]
                      rw [hpe]
                      simp only [List.filter_cons, hs, if_true,
                        List.filterMap_cons, List.nil_append]
                      have ihx := ih st hproto' hpend
                        (by rw [hpe]; intro h; exact absurd rfl h)
                      rw [hpe] at ihx
                      simp only [List.nil_append] at ihx
                      exact List.Sublist.cons₂ _ ihx
                    · -- buffered
                      have hr : r = false := by
                        by_contra hrr
                        exact hemit (Or.inl (by simpa using hrr))
                      have hp : p = true := by
                        by_contra hpp
                        exact hemit (Or.inr (by simpa using hpp))
                      subst hr; subst hp
                      rw [show buRun st (⟨false, false, false, true, some d⟩ :: rest)
                          = buRun ⟨st.pending ++ [d], true⟩ rest by
                        simp [buRun, buStep_special_buffered st d hend hs]]
                      simp only [List.filterMap_cons, List.filter_cons, hs, if_true]
                      have := ih ⟨st.pending ++ [d], true⟩ hproto'
                        (by
                          intro q hq
                          rcases List.mem_append.mp hq with hq | hq
                          · exact hpend q hq
                          · simp only [List.mem_singleton] at hq
                            subst hq
                            exact hs)
                        (by
                          intro _ inp' hmem hres'
                          rcases hrel inp' hmem rfl with hh | hh
                          · exact hh
                          · rw [hres'] at hh
                            exact Bool.noConfusion hh)
                      simp only at this
                      rw [List.append_assoc] at this
                      simpa using this
                  · -- non-special, no flush
                    have hs' : isSpecial d = false := by simpa using hs
                    have hstep : buStep st ⟨false, false, r, p, some d⟩
                        = ([d], st, true) := by
                      simp only [buStep, Bool.false_eq_true, if_false]
                      rw [if_neg (by simp [hend] : ¬(d = QItem.endQ))]
                      rw [if_neg hout1]
                      simp [hs']
                    rw [show buRun st (⟨false, false, r, p, some d⟩ :: rest)
                        = d :: buRun st rest by simp [buRun, hstep]]
                    simp only [List.filter_cons, hs', Bool.false_eq_true,
                      if_false, List.filterMap_cons]
                    exact ih st hproto' hpend
                      (fun hne inp' hmem => hreach hne inp' (List.mem_cons_of_mem _ hmem))

end BrowserUse

section PauseClaims

open BrowserUse

/-- C7: while paused and not resumed, commentary (goal/memory narration)
items are buffered instead of yielded; non-commentary items are always
yielded in their own iteration (after any released backlog); a resume
observed on the poll timeout releases the whole backlog in order; and under
the reachable pause/resume flag protocol, the commentary items of the output
stream appear exactly in arrival order — deferred commentary is released
before any newer commentary. -/
theorem C7_paused_commentary_deferral :
    (∀ (st : BUState) (r p : Bool) (d : QItem), d ≠ .endQ →
      isSpecial d = false →
      (buStep st ⟨false, false, r, p, some d⟩).1
        = (if r = true ∧ st.pending ≠ [] then st.pending else []) ++ [d]) ∧
    (∀ (st : BUState) (d : QItem), d ≠ .endQ → isSpecial d = true →
      buStep st ⟨false, false, false, true, some d⟩
        = ([], ⟨st.pending ++ [d], true⟩, true)) ∧
    (∀ (st : BUState) (p : Bool), st.hasPending = true →
      buStep st ⟨false, false, true, p, none⟩
        = (st.pending, ⟨[], false⟩, true)) ∧
    (∀ inputs : List LoopInput, FlagsProtocol inputs →
      ((buRun ⟨[], false⟩ inputs).filter isSpecial).Sublist
        ((inputs.filterMap LoopInput.data).filter isSpecial)) := by
  refine ⟨buStep_nonspecial_emitted, buStep_special_buffered,
    buStep_timeout_flush, ?_⟩
  intro inputs hproto
  have := buRun_commentary_order inputs ⟨[], false⟩ hproto (by simp) (by simp)
  simpa using this

/-- Witness for C7: a commentary item is buffered while paused, and over a
concrete paused-then-resumed input sequence the deferred commentary is
released in arrival order. -/
theorem C7_witness :
    buStep ⟨[], false⟩
        ⟨false, false, false, true, some (.ai "*Memory*:\nfoo" [])⟩
      = ([], ⟨[QItem.ai "*Memory*:\nfoo" []], true⟩, true) ∧
    ((buRun ⟨[], false⟩
        [⟨false, false, false, true, some (.ai "*Memory*:\nfoo" [])⟩,
         ⟨false, false, true, false, some (.ai "*Next Goal*:\nbar" [])⟩]).filter
          isSpecial).Sublist
      (([some (QItem.ai "*Memory*:\nfoo" []),
         some (QItem.ai "*Next Goal*:\nbar" [])].filterMap id).filter
          isSpecial) := by
  constructor
  · have h := C7_paused_commentary_deferral.2.1 ⟨[], false⟩
      (.ai "*Memory*:\nfoo" []) (by decide) (by decide)
    simpa using h
  · have hproto : FlagsProtocol
        [⟨false, false, false, true, some (.ai "*Memory*:\nfoo" [])⟩,
         ⟨false, false, true, false, some (.ai "*Next Goal*:\nbar" [])⟩] := by
      refine List.Pairwise.cons ?_ (List.Pairwise.cons ?_ List.Pairwise.nil)
      · intro b hb _
        simp only [List.mem_singleton] at hb
        subst hb
        right
        rfl
      · intro b hb
        simp at hb
    have h := C7_paused_commentary_deferral.2.2.2 _ hproto
    simpa using h

end PauseClaims
